import Mathlib

/-!
# StructuredJS — verification of the matching engine (src/structured.js)

A shallow embedding of the StructuredJS structural matcher.  Esprima-style
syntax trees are JavaScript objects; we model JS values with the mutual
inductive `JsVal`/`JFields`/`JElems` (objects keep insertion-ordered field
lists, as JS object enumeration does).  Two template-annotation artifacts are
part of the value space:

* the binding-site marker `{wildcardVar: "$x"}` is an ordinary one-field
  object (exactly as in the source, `simplifyTree` line 364);
* a later occurrence of a named variable is, in the source, a live object
  *reference* to the mutable binding cell `wVars.values[name]`
  (`simplifyTree` line 368).  We model that aliasing with the constructor
  `vRef name`, dereferenced against the explicit matcher state at every use,
  which is exactly what the JS object reference does.

Mutation (binding cells written by `_.extend`, the destructively shifted
peers array, the accumulating `matchResults`) is modelled by explicit state
threading; every function returns its updated state.  The recursive matcher
(`checkMatchTree` / `checkNodeArray` / `exactMatchNode`) is defined with a
fuel parameter (`step`), structurally recursive on the fuel, so that runs on
concrete inputs compute inside the kernel; `none` means the fuel ran out.
-/

set_option maxHeartbeats 1000000

namespace Structured

mutual

/-- A JavaScript value as used by structured.js: scalars, `null`,
`undefined`, objects with ordered fields, arrays, plus `vRef n`, the
modelled object-reference to the binding cell `wVars.values[n]`. -/
inductive JsVal where
  | vStr (s : String)
  | vNum (n : Int)
  | vBool (b : Bool)
  | vNull
  | vUndef
  | vObj (fields : JFields)
  | vArr (elems : JElems)
  | vRef (name : String)
  deriving DecidableEq, Repr

/-- Ordered field list of a JS object (insertion order, as JS `for..in`). -/
inductive JFields where
  | nil
  | cons (key : String) (val : JsVal) (rest : JFields)
  deriving DecidableEq, Repr

/-- Ordered element list of a JS array. -/
inductive JElems where
  | nil
  | cons (head : JsVal) (rest : JElems)
  deriving DecidableEq, Repr

end

open JsVal JFields JElems

/-- Field lookup in an ordered field list; absent keys read as `undefined`,
exactly as JS property access does. -/
def getF : JFields → String → JsVal
  | .nil, _ => vUndef
  | .cons k v r, key => if k = key then v else getF r key

/-- Whether a key is an own property of the field list. -/
def hasF : JFields → String → Bool
  | .nil, _ => false
  | .cons k _ r, key => k = key || hasF r key

/-- JS assignment `obj[key] = v`: overwrite in place if the key exists
(keeping its position), else append. -/
def setF : JFields → String → JsVal → JFields
  | .nil, key, v => .cons key v .nil
  | .cons k w r, key, v =>
    if k = key then .cons k v r else .cons k w (setF r key v)

/-- `_.extend(target, source)`: copy each field of `source` onto `target`
in order (overwrite or append). -/
def extendF (target : JFields) : JFields → JFields
  | .nil => target
  | .cons k v r => extendF (setF target k v) r

/-- The fields of a value, empty for non-objects. -/
def fieldsOf : JsVal → JFields
  | vObj fs => fs
  | _ => .nil

/-- Property read on any value (non-objects have no own properties here;
the AST values the matcher reads properties of are objects). -/
def getField (v : JsVal) (key : String) : JsVal :=
  getF (fieldsOf v) key

def toListF : JFields → List (String × JsVal)
  | .nil => []
  | .cons k v r => (k, v) :: toListF r

def toListE : JElems → List JsVal
  | .nil => []
  | .cons x r => x :: toListE r

def ofListE : List JsVal → JElems
  | [] => .nil
  | x :: r => .cons x (ofListE r)

/-- JS truthiness. -/
def truthy : JsVal → Bool
  | vStr s => s ≠ ""
  | vNum n => n ≠ 0
  | vBool b => b
  | vNull => false
  | vUndef => false
  | vObj _ => true
  | vArr _ => true
  | vRef _ => true

/-- `_.isObject` (true for objects and arrays; `vRef` is an object
reference). -/
def isObjectJ : JsVal → Bool
  | vObj _ => true
  | vArr _ => true
  | vRef _ => true
  | _ => false

/-- `_.isArray`. -/
def isArrayJ : JsVal → Bool
  | vArr _ => true
  | _ => false

/-- JS `typeof`. -/
def typeofJ : JsVal → String
  | vStr _ => "string"
  | vNum _ => "number"
  | vBool _ => "boolean"
  | vNull => "object"
  | vUndef => "undefined"
  | vObj _ => "object"
  | vArr _ => "object"
  | vRef _ => "object"

/-- Association-list lookup (used for the explicitly threaded maps of the
matcher state). -/
def alookup {α : Type} : List (String × α) → String → Option α
  | [], _ => none
  | (k, v) :: r, key => if k = key then some v else alookup r key

/-- Association-list update-or-append (JS object key assignment). -/
def aset {α : Type} : List (String × α) → String → α → List (String × α)
  | [], key, v => [(key, v)]
  | (k, w) :: r, key, v =>
    if k = key then (k, v) :: r else (k, w) :: aset r key v

/-! ## deepClone (source line 590): `JSON.parse(JSON.stringify(obj))`

The JSON round trip drops object fields whose value is `undefined`, turns
`undefined` array elements into `null`, and copies everything else.  A
`vRef` is an object reference, which `JSON.stringify` would serialize by
following it; it never occurs in the values `deepClone` is applied to
(caller-supplied trees, parser output, binding-cell contents), so we map it
to `vNull` as an arbitrary total-function value. -/

mutual

def deepClone : JsVal → JsVal
  | vObj fs => vObj (deepCloneF fs)
  | vArr es => vArr (deepCloneE es)
  | vRef _ => vNull
  | v => v

def deepCloneF : JFields → JFields
  | .nil => .nil
  | .cons k v r =>
    match v with
    | vUndef => deepCloneF r
    | _ => .cons k (deepClone v) (deepCloneF r)

def deepCloneE : JElems → JElems
  | .nil => .nil
  | .cons x r =>
    match x with
    | vUndef => .cons vNull (deepCloneE r)
    | _ => .cons (deepClone x) (deepCloneE r)

end

/-! ## Constant folding (source lines 298–328)

`foldConstants(tree)` walks every own property; on each object-valued
property it first recurses, then, if the (now recursively folded) child is a
`UnaryExpression` whose `argument` is a numeric `Literal`, it replaces the
child by the literal with the sign applied (`-`) or unchanged (`+`).  The
tree's root itself is never folded (only properties of the argument are
rewritten), matching the source, which only assigns `tree[key]`. -/

/-- The single fold step the source performs at a property after recursion:
rewrite a unary minus or plus applied to `Literal n` into the literal node (all other
fields of the literal are kept; its `value` is updated in place). -/
def tryFold (v : JsVal) : JsVal :=
  match v with
  | vObj fs =>
    if getF fs "type" = vStr "UnaryExpression" then
      match getF fs "argument" with
      | vObj afs =>
        if getF afs "type" = vStr "Literal" then
          match getF afs "value" with
          | vNum n =>
            if getF fs "operator" = vStr "-" then
              vObj (setF afs "value" (vNum (-n)))
            else if getF fs "operator" = vStr "+" then
              vObj (setF afs "value" (vNum n))
            else v
          | _ => v
        else v
      | _ => v
    else v
  | _ => v

mutual

/-- `foldConstants`, as a pure tree transform: the returned value is the
mutated tree. -/
def foldConstants : JsVal → JsVal
  | vObj fs => vObj (foldConstantsF fs)
  | vArr es => vArr (foldConstantsE es)
  | v => v

def foldConstantsF : JFields → JFields
  | .nil => .nil
  | .cons k v r =>
    let v' := if isObjectJ v then tryFold (foldConstants v) else v
    .cons k v' (foldConstantsF r)

def foldConstantsE : JElems → JElems
  | .nil => .nil
  | .cons x r =>
    let x' := if isObjectJ x then tryFold (foldConstants x) else x
    .cons x' (foldConstantsE r)

end

/-! ## Wildcard classification (source lines 385–404) -/

/-- Character-list based string helpers (kernel-computable replacements for
the byte-offset string primitives). -/
def strStartsWith (s p : String) : Bool :=
  List.isPrefixOf p.data s.data

/-- JS `slice(n)` on an ASCII identifier. -/
def strDrop (s : String) (n : Nat) : String :=
  String.mk (s.data.drop n)

def jsSpace (c : Char) : Bool :=
  c = ' ' || c = '\t' || c = '\n' || c = '\r' || c = '\x0b' || c = '\x0c'

/-- `String.prototype.trim`. -/
def strTrim (s : String) : String :=
  String.mk (((s.data.dropWhile jsSpace).reverse.dropWhile jsSpace).reverse)

def splitCommaAux : List Char → List Char → List String
  | [], acc => [String.mk acc.reverse]
  | c :: r, acc =>
    if c = ',' then String.mk acc.reverse :: splitCommaAux r []
    else splitCommaAux r (c :: acc)

/-- `String.prototype.split(",")`. -/
def strSplitComma (s : String) : List String :=
  splitCommaAux s.data []

/-- `isWildcard` (line 385): a node named `_`, or a node whose `body` is an
empty array. -/
def isWildcard (node : JsVal) : Bool :=
  (truthy (getField node "name") && getField node "name" = vStr "_") ||
  (isArrayJ (getField node "body") && getField node "body" = vArr .nil)

/-- `isWildcardVar` (line 391): a node whose `name` is a string of length
at least 2 beginning with `$`. -/
def isWildcardVar (node : JsVal) : Bool :=
  match getField node "name" with
  | vStr s => decide (2 ≤ s.length) && strStartsWith s "$"
  | _ => false

/-- The variable name of a wildcard-variable node. -/
def wildcardName (node : JsVal) : String :=
  match getField node "name" with
  | vStr s => s
  | _ => ""

/-- The name-based part of `isGlob` (line 399): `glob_` yields the anonymous
marker `_`; `glob$suffix` with a nonempty suffix yields the suffix; a bare
`glob$` yields the empty string, which is falsy in JS, so the caller falls
through to the `expression` check. -/
def nameGlob (fs : JFields) : Option String :=
  match getF fs "name" with
  | vStr s =>
    if s = "glob_" then some "_"
    else if strStartsWith s "glob$" && decide (5 < s.length) then some (strDrop s 5)
    else none
  | _ => none

mutual

/-- `isGlob` on values that contain no binding-cell reference: check the
node's `name`, else recurse into a truthy `expression` property. -/
def isGlobCore : JsVal → Option String
  | vObj fs =>
    match nameGlob fs with
    | some g => some g
    | none => exprGlobCore fs
  | _ => none

def exprGlobCore : JFields → Option String
  | .nil => none
  | .cons k v r =>
    if k = "expression" then
      if truthy v then isGlobCore v else none
    else exprGlobCore r

end

mutual

/-- `isGlob` (line 399) with the binding cells in scope: a `vRef` is, in the
source, the cell object itself, so it is dereferenced and inspected.  Cell
contents are shallow copies of program nodes and contain no further
references, so after one dereference `isGlobCore` applies. -/
def isGlobS (cells : List (String × JFields)) : JsVal → Option String
  | vObj fs =>
    match nameGlob fs with
    | some g => some g
    | none => exprGlobS cells fs
  | vRef n =>
    isGlobCore (vObj ((alookup cells n).getD .nil))
  | _ => none

def exprGlobS (cells : List (String × JFields)) : JFields → Option String
  | .nil => none
  | .cons k v r =>
    if k = "expression" then
      if truthy v then isGlobS cells v else none
    else exprGlobS cells r

end

/-! ## simplifyTree (source lines 351–379)

Walks the template; object-valued properties are classified: blank wildcards
become `undefined`, the first occurrence of a named variable becomes the
marker object `{wildcardVar: name}` (and the variable's binding cell is
created and its name appended to `order`), later occurrences become a
reference to the binding cell (`vRef`), empty statements are deleted
(`delete` on objects; `splice` on arrays, whose interplay with the ongoing
`for..in` makes the element shifted into the removed slot skip its own
processing), and anything else is recursed into.  The threaded
`List String` is `wVars.order`; a cell exists in `wVars.values` exactly for
the names in it, each cell initially empty and each skip count 0. -/

mutual

def simplifyTree : JsVal → List String → JsVal × List String
  | vObj fs, o =>
    let p := simplifyTreeF fs o
    (vObj p.1, p.2)
  | vArr es, o =>
    let p := simplifyTreeE es o
    (vArr p.1, p.2)
  | v, o => (v, o)

def simplifyTreeF : JFields → List String → JFields × List String
  | .nil, o => (.nil, o)
  | .cons k v r, o =>
    if isObjectJ v then
      if isWildcard v then
        let p := simplifyTreeF r o
        (.cons k vUndef p.1, p.2)
      else if isWildcardVar v then
        let n := wildcardName v
        if o.contains n then
          let p := simplifyTreeF r o
          (.cons k (vRef n) p.1, p.2)
        else
          let p := simplifyTreeF r (o ++ [n])
          (.cons k (vObj (.cons "wildcardVar" (vStr n) .nil)) p.1, p.2)
      else if getField v "type" = vStr "EmptyStatement" then
        simplifyTreeF r o
      else
        let q := simplifyTree v o
        let p := simplifyTreeF r q.2
        (.cons k q.1 p.1, p.2)
    else
      let p := simplifyTreeF r o
      (.cons k v p.1, p.2)

def simplifyTreeE : JElems → List String → JElems × List String
  | .nil, o => (.nil, o)
  | .cons x r, o =>
    if isObjectJ x then
      if isWildcard x then
        let p := simplifyTreeE r o
        (.cons vUndef p.1, p.2)
      else if isWildcardVar x then
        let n := wildcardName x
        if o.contains n then
          let p := simplifyTreeE r o
          (.cons (vRef n) p.1, p.2)
        else
          let p := simplifyTreeE r (o ++ [n])
          (.cons (vObj (.cons "wildcardVar" (vStr n) .nil)) p.1, p.2)
      else if getField x "type" = vStr "EmptyStatement" then
        match r with
        | .nil => (.nil, o)
        | .cons y r' =>
          let p := simplifyTreeE r' o
          (.cons y p.1, p.2)
      else
        let q := simplifyTree x o
        let p := simplifyTreeE r q.2
        (.cons q.1 p.1, p.2)
    else
      let p := simplifyTreeE r o
      (.cons x p.1, p.2)

end

/-! ## Matcher state

`wVars.values` (the binding cells), `wVars.leftToSkip`, and the shared
`matchResults` (`_`, `vars`, `root`), threaded explicitly.  The engine never
touches `wVars.order`/`wVars.skipData` or the callback bookkeeping, which
live in the search controller's state. -/

structure WST where
  /-- `wVars.values`: the binding cell of each named variable. -/
  values : List (String × JFields)
  /-- `wVars.leftToSkip`: remaining skips per variable, consumed live. -/
  leftToSkip : List (String × Nat)
  /-- `matchResults._`: anonymous captures, in push order. -/
  blanks : List JsVal
  /-- `matchResults.vars`: named variable and named glob captures. -/
  mvars : List (String × JsVal)
  /-- `matchResults.root`. -/
  root : Option JsVal
  deriving DecidableEq

def ltsGet (st : WST) (n : String) : Nat :=
  (alookup st.leftToSkip n).getD 0

def ltsDec (st : WST) (n : String) : WST :=
  { st with leftToSkip := aset st.leftToSkip n (ltsGet st n - 1) }

def cellGet (st : WST) (n : String) : JFields :=
  (alookup st.values n).getD .nil

/-- `_.extend(wVars.values[n], currNode)`: shallow-merge the candidate's
fields onto the binding cell. -/
def extendCell (st : WST) (n : String) (fs : JFields) : WST :=
  { st with values := aset st.values n (extendF (cellGet st n) fs) }

def setMVar (st : WST) (k : String) (v : JsVal) : WST :=
  { st with mvars := aset st.mvars k v }

def pushBlank (st : WST) (v : JsVal) : WST :=
  { st with blanks := st.blanks ++ [v] }

def applyRoot (rootToSet : Option JsVal) (st : WST) : WST :=
  match rootToSet with
  | some r => { st with root := some r }
  | none => st

/-- Record a glob capture: anonymous globs push the captured list onto
`matchResults._`, named globs store it under the name. -/
def registerGlob (g : String) (captured : List JsVal) (st : WST) : WST :=
  if g = "_" then pushBlank st (vArr (ofListE captured))
  else setMVar st g (vArr (ofListE captured))

/-- The own enumerable property values of a node, for the recursive-descent
loop of `checkMatchTree` (line 427). -/
def childrenOf : JsVal → List JsVal
  | vObj fs => (toListF fs).map Prod.snd
  | vArr es => toListE es
  | _ => []

def elemsList : JsVal → List JsVal
  | vArr es => toListE es
  | _ => []

/-- The field list `exactMatchNode`'s `for..in` iterates, dereferencing a
binding-cell reference to the cell's current contents, with the flag for the
`toFind === undefined` check of line 581.  Scalars and arrays as `toFind`
are unreachable (the source logs an error for arrays, line 416). -/
def derefFind (st : WST) : JsVal → List (String × JsVal) × Bool
  | vUndef => ([], true)
  | vRef n => (toListF (cellGet st n), false)
  | vObj fs => (toListF fs, false)
  | _ => ([], false)

/-- The pending call of the mutually recursive matching engine:
`checkMatchTree` (`cmt`, with `cmtKids` its child-descent loop),
`exactMatchNode` (`emn`, with `emnFields` its field loop carrying the
remaining fields, the `toFind === undefined` flag and `rootToSet`), and
`checkNodeArray` (`cna`). -/
inductive ECall where
  | cmt (curr toFind : JsVal) (peers : List JsVal)
  | cmtKids (kids : List JsVal) (toFind : JsVal) (peers : List JsVal)
  | emn (curr toFind : JsVal) (peers : List JsVal)
  | emnFields (curr : JsVal) (tfUndef : Bool) (flds : List (String × JsVal))
      (rootToSet : Option JsVal) (peers : List JsVal)
  | cna (arr : List JsVal) (toFind : JsVal) (peers : List JsVal)
  deriving DecidableEq

/-- Branch on an engine-call result: fuel-out propagates, a success and a
failure take their continuations. -/
def obranch (T F : List JsVal → WST → Option (Bool × List JsVal × WST)) :
    Option (Bool × List JsVal × WST) → Option (Bool × List JsVal × WST)
  | none => none
  | some (true, p1, st1) => T p1 st1
  | some (false, p1, st1) => F p1 st1

/-- Branch on a list (the shared peers list, or the remaining sequence). -/
def lbranch {γ : Type} (N : γ) (C : JsVal → List JsVal → γ) : List JsVal → γ
  | [] => N
  | x :: r => C x r

/-- Branch on whether a value is a string (the `wildcardVar` marker's
payload). -/
def strbranch {γ : Type} (S : String → γ) (D : γ) : JsVal → γ
  | vStr n => S n
  | _ => D

/-- Branch on an array-valued template field: empty, first-plus-rest, or
not an array at all. -/
def arrbranch {γ : Type} (N : γ) (C : JsVal → JElems → γ) (D : γ) :
    JsVal → γ
  | vArr .nil => N
  | vArr (.cons tf0 ptail) => C tf0 ptail
  | _ => D

/-- One fuel-metered interpreter for the engine (source lines 414–588).
Returns `none` when the fuel runs out, else the boolean result (the source's
`matchResults`-or-`false`), the final shared peers list (`peersToFind` is
destructively shifted in the source and visible to the caller), and the
updated state. -/
def step (single : Bool) : Nat → ECall → WST → Option (Bool × List JsVal × WST)
  | 0, _, _ => none
  | f + 1, c, st =>
    match c with
    | .cmt curr toFind peers =>
      -- checkMatchTree: try exactMatchNode, then (unless options.single)
      -- descend into the children.
      obranch (fun p1 st1 => some (true, p1, st1))
        (fun p1 st1 =>
          if single then some (false, p1, st1)
          else step single f (.cmtKids (childrenOf curr) toFind p1) st1)
        (step single f (.emn curr toFind peers) st)
    | .cmtKids [] _ peers => some (false, peers, st)
    | .cmtKids (x :: rest) toFind peers =>
      if isObjectJ x then
        obranch (fun p1 st1 => some (true, p1, st1))
          (fun p1 st1 => step single f (.cmtKids rest toFind p1) st1)
          (if isArrayJ x then step single f (.cna (elemsList x) toFind peers) st
           else step single f (.cmt x toFind peers) st)
      else step single f (.cmtKids rest toFind peers) st
    | .emn curr toFind peers =>
      let rootToSet : Option JsVal :=
        if st.root = none && getField curr "type" ≠ vStr "Program" then some curr
        else none
      let d := derefFind st toFind
      step single f (.emnFields curr d.2 d.1 rootToSet peers) st
    | .emnFields curr tfUndef [] rootToSet peers =>
      let st1 := if tfUndef then pushBlank st curr else st
      some (true, peers, applyRoot rootToSet st1)
    | .emnFields curr tfUndef ((k, subFind) :: rest) rootToSet peers =>
      if subFind = vNull then
        -- null properties can be anything and do not have to exist
        step single f (.emnFields curr tfUndef rest rootToSet peers) st
      else
        let subCurr := getField curr k
        if subFind = vUndef then
          -- undefined properties can be anything, but they must exist
          if subCurr = vNull || subCurr = vUndef then some (false, peers, st)
          else
            let st1 :=
              if truthy (getField subCurr "body") then st else pushBlank st subCurr
            step single f (.emnFields curr tfUndef rest rootToSet peers) st1
        else if subCurr = vUndef || subCurr = vNull then
          -- currNode does not have the key, but toFind does
          if k = "wildcardVar" then
            strbranch
              (fun n =>
                if 0 < ltsGet st n then some (false, peers, ltsDec st n)
                else
                  some (true, peers,
                    applyRoot rootToSet
                      (setMVar (extendCell st n (fieldsOf curr))
                        (strDrop n 1) curr)))
              (some (false, peers, st)) subFind
          else some (false, peers, st)
        else if isObjectJ subCurr ≠ isObjectJ subFind ||
            isArrayJ subCurr ≠ isArrayJ subFind ||
            typeofJ subCurr ≠ typeofJ subFind then
          some (false, peers, st)
        else if isArrayJ subCurr then
          arrbranch
            -- empty arrays can match any array
            (step single f (.emnFields curr tfUndef rest rootToSet peers) st)
            -- fresh peers list subFind.slice(1); its final value is dropped
            (fun tf0 ptail =>
              obranch
                (fun _ st1 =>
                  step single f (.emnFields curr tfUndef rest rootToSet peers) st1)
                (fun _ st1 => some (false, peers, st1))
                (step single f (.cna (elemsList subCurr) tf0 (toListE ptail)) st))
            (some (false, peers, st)) subFind
        else if isObjectJ subCurr then
          obranch
            (fun p1 st1 =>
              step single f (.emnFields curr tfUndef rest rootToSet p1) st1)
            (fun p1 st1 => some (false, p1, st1))
            (step single f (.cmt subCurr subFind peers) st)
        else
          if subCurr = subFind then
            step single f (.emnFields curr tfUndef rest rootToSet peers) st
          else some (false, peers, st)
    | .cna arr toFind peers =>
      match isGlobS st.values toFind with
      | some g => some (true, peers, registerGlob g arr st)
      | none =>
        lbranch (some (false, peers, st))
          (fun x rest =>
            obranch
              (fun p1 st1 =>
                lbranch (some (true, [], st1))
                  (fun tf1 pr => step single f (.cna rest tf1 pr) st1) p1)
              (fun p1 st1 => step single f (.cna rest toFind p1) st1)
              (step single f (.cmt x toFind peers) st)) arr

/-- `checkMatchTree` (line 414), fuel-metered. -/
def checkMatchTree (single : Bool) (fuel : Nat) (curr toFind : JsVal)
    (peers : List JsVal) (st : WST) : Option (Bool × List JsVal × WST) :=
  step single fuel (.cmt curr toFind peers) st

/-- `checkNodeArray` (line 446), fuel-metered. -/
def checkNodeArray (single : Bool) (fuel : Nat) (arr : List JsVal)
    (toFind : JsVal) (peers : List JsVal) (st : WST) :
    Option (Bool × List JsVal × WST) :=
  step single fuel (.cna arr toFind peers) st

/-- `exactMatchNode` (line 501), fuel-metered. -/
def exactMatchNode (single : Bool) (fuel : Nat) (curr toFind : JsVal)
    (peers : List JsVal) (st : WST) : Option (Bool × List JsVal × WST) :=
  step single fuel (.emn curr toFind peers) st

/-! ## checkUserVarCallbacks (source lines 212–254)

A user callback is an arbitrary function from the argument list to a JS
value; it is modelled as a Lean function `List JsVal → JsVal`.  A key like
`"$foo, $bar"` is split on commas and each name trimmed.  A name with no
binding cell (a variable absent from the template) is reported on the error
console and contributes `undefined` to the argument list — the callback is
still invoked.  The first group whose result is falsy or carries a
`failure` property stops the scan; `varCallbacks.failure` (modelled as the
returned `Option JsVal`) is cleared on entry and set from that property. -/

def VarCallbacks : Type := List (String × (List JsVal → JsVal))

/-- Argument gathering: per name, a deep copy of the binding cell, or
`undefined` plus a console error when the cell does not exist. -/
def cucbGather (st : WST) : List String → List JsVal × List String
  | [] => ([], [])
  | name :: rest =>
    let nm := strTrim name
    let p := cucbGather st rest
    if (alookup st.values nm).isSome then
      (deepClone (vObj (cellGet st nm)) :: p.1, p.2)
    else
      (vUndef :: p.1, ("Callback var " ++ nm ++ " doesn't exist") :: p.2)

/-- `checkUserVarCallbacks`: returns acceptance, the `failure` message value
left on the callbacks object, and the console-error log. -/
def checkUserVarCallbacks (st : WST) : VarCallbacks →
    Bool × Option JsVal × List String
  | [] => (true, none, [])
  | (prop, cb) :: rest =>
    let g := cucbGather st ((strSplitComma prop).map (fun s => strTrim s))
    let result := cb g.1
    if !truthy result || hasF (fieldsOf result) "failure" then
      (false,
       if hasF (fieldsOf result) "failure" then some (getField result "failure")
       else none,
       g.2)
    else
      let r := checkUserVarCallbacks st rest
      (r.1, r.2.1, g.2 ++ r.2.2)

/-! ## The variable search controller `anyPossible` (source lines 138–177)

`anyLoop ctx cbs fe fa i s` is the `do … while` loop of `anyPossible(i)`,
entered after the caller has reset `skipData[order[i]]` to 0; `fa` is loop
fuel (each iteration of the current level consumes one unit; a recursive
level receives the remaining fuel), `fe` the engine fuel given to each
matching run. -/

structure MatchCtx where
  single : Bool
  codeTree : JsVal
  toFind : JsVal
  peers : List JsVal
  order : List String

structure SearchST where
  /-- `wVars.skipData`. -/
  skipData : List (String × Nat)
  /-- Engine-visible state (cells, leftToSkip, matchResults). -/
  mst : WST
  /-- `varCallbacks.failure`. -/
  failure : Option JsVal
  /-- Console-error log of the callback checker. -/
  errlog : List String
  deriving DecidableEq

def nthName (order : List String) (i : Nat) : String :=
  order.getD i ""

def sdSet (s : SearchST) (n : String) (v : Nat) : SearchST :=
  { s with skipData := aset s.skipData n v }

def sdGet (s : SearchST) (n : String) : Nat :=
  (alookup s.skipData n).getD 0

/-- Lines 143–145: reset the skip count of every later variable. -/
def resetLater (order : List String) (i : Nat) (s : SearchST) : SearchST :=
  (order.drop (i + 1)).foldl (fun acc n => sdSet acc n 0) s

/-- Lines 153–157: clear every binding cell, keeping the cell objects (the
keys of `values`) so template references stay valid. -/
def clearCells (st : WST) : WST :=
  { st with values := st.values.map (fun p => (p.1, JFields.nil)) }

def cellEmptyW (st : WST) (n : String) : Bool :=
  cellGet st n = JFields.nil

/-- Lines 168–175: bump the current variable's skip count; the loop exits
(and `anyPossible` returns false) once the run left this binding cell
empty, otherwise it loops (`loop` is the remaining do-while). -/
def contStep (nm : String) (loop : SearchST → Option (Bool × SearchST))
    (s1 : SearchST) : Option (Bool × SearchST) :=
  if cellEmptyW (sdSet s1 nm (sdGet s1 nm + 1)).mst nm then
    some (false, sdSet s1 nm (sdGet s1 nm + 1))
  else loop (sdSet s1 nm (sdGet s1 nm + 1))

/-- Branch on an engine-run result: fuel-out propagates, otherwise the
continuation receives the verdict and the run's final engine state. -/
def runbranch (K : Bool → WST → Option (Bool × SearchST)) :
    Option (Bool × List JsVal × WST) → Option (Bool × SearchST)
  | none => none
  | some (ok, _, mst1) => K ok mst1

/-- Branch on a deeper `anyPossible` level: fuel-out and success propagate,
a failure resumes the current level's do-while. -/
def recbranch (C : SearchST → Option (Bool × SearchST)) :
    Option (Bool × SearchST) → Option (Bool × SearchST)
  | none => none
  | some (true, s1) => some (true, s1)
  | some (false, s1) => C s1

/-- The `do … while` loop body of `anyPossible(i)`.  At the last index it
resets the cells, copies `skipData` into `leftToSkip`, runs the engine on a
fresh copy of the peers list and then checks the user callbacks; at earlier
indices it recurses into the next level. -/
def anyLoop (ctx : MatchCtx) (cbs : VarCallbacks) (fe : Nat) :
    Nat → Nat → SearchST → Option (Bool × SearchST)
  | 0, _, _ => none
  | fa + 1, i, s =>
    if i = ctx.order.length - 1 then
      runbranch
        (fun ok mst1 =>
          if ok then
            if (checkUserVarCallbacks mst1 cbs).1 then
              some (true,
                { resetLater ctx.order i s with
                    mst := mst1,
                    failure := (checkUserVarCallbacks mst1 cbs).2.1,
                    errlog := (resetLater ctx.order i s).errlog ++
                      (checkUserVarCallbacks mst1 cbs).2.2 })
            else
              contStep (nthName ctx.order i) (anyLoop ctx cbs fe fa i)
                { resetLater ctx.order i s with
                    mst := mst1,
                    failure := (checkUserVarCallbacks mst1 cbs).2.1,
                    errlog := (resetLater ctx.order i s).errlog ++
                      (checkUserVarCallbacks mst1 cbs).2.2 }
          else
            contStep (nthName ctx.order i) (anyLoop ctx cbs fe fa i)
              { resetLater ctx.order i s with mst := mst1 })
        (step ctx.single fe (.cmt ctx.codeTree ctx.toFind ctx.peers)
          { clearCells (resetLater ctx.order i s).mst with
              leftToSkip := (resetLater ctx.order i s).skipData })
    else
      recbranch
        (contStep (nthName ctx.order i) (anyLoop ctx cbs fe fa i))
        (anyLoop ctx cbs fe fa (i + 1)
          (sdSet (resetLater ctx.order i s) (nthName ctx.order (i + 1)) 0))

/-! ## parseStructure, caches and the match entry point (lines 73–109,
256–293) -/

/-- A caller-supplied program or template: source text, or a pre-parsed
tree (`typeof === "object"`). -/
inductive SourceOrTree where
  | src (s : String)
  | obj (t : JsVal)
  deriving DecidableEq

/-- The module-level caches: `structureCache` (template source text to the
stringified parsed body; modelled as the tree, retrieval being a JSON
round-trip `deepClone`) and the single-slot program cache. -/
structure Caches where
  structureCache : List (String × JsVal)
  cachedCode : Option SourceOrTree
  cachedCodeTree : Option JsVal
  deriving DecidableEq

def emptyCaches : Caches := ⟨[], none, none⟩

/-- `parseStructure` (line 256): object templates are deep-cloned; source
templates are served from the cache (a JSON round trip) or parsed wrapped in
parentheses, shape-checked, extracted and cached.  `none` models the
"Poorly formatted structure code" throw (and the member accesses on an
absent body that would crash before it). -/
def parseStructure (parse : String → JsVal) (sc : List (String × JsVal)) :
    SourceOrTree → Option (JsVal × List (String × JsVal))
  | .obj t => some (deepClone t, sc)
  | .src s =>
    match alookup sc s with
    | some cached => some (deepClone cached, sc)
    | none =>
      let full := parse ("(" ++ s ++ ")")
      let e := getField (arrHead (getField full "body")) "expression"
      if getField e "type" = vStr "FunctionExpression" && truthy (getField e "body")
      then some (getField e "body", aset sc s (getField e "body"))
      else none
where
  arrHead : JsVal → JsVal
    | vArr (.cons x _) => x
    | _ => vUndef

/-- `parseStructureWithVars` (line 288): parse, fold constants, annotate
wildcards; returns the annotated tree, `wVars.order`, and the updated
template cache. -/
def parseStructureWithVars (parse : String → JsVal)
    (sc : List (String × JsVal)) (rawStructure : SourceOrTree) :
    Option (JsVal × List String × List (String × JsVal)) :=
  match parseStructure parse sc rawStructure with
  | none => none
  | some (tree, sc') =>
    let p := simplifyTree (foldConstants tree) []
    some (p.1, p.2, sc')

/-- The final outcome of a `match` call: the boolean result with the
engine/search state (holding `matchResults`), plus `varCallbacks.failure`
and the console-error log. -/
structure MatchOut where
  ok : Bool
  mst : WST
  failure : Option JsVal
  errlog : List String
  deriving DecidableEq

/-- Lines 83–87: take the cached tree when `cachedCode === code`, else
deep-clone an object input or parse source text. -/
def codeTreeOf (parse : String → JsVal) (caches : Caches)
    (code : SourceOrTree) : JsVal :=
  if caches.cachedCode = some code then caches.cachedCodeTree.getD vUndef
  else
    match code with
    | .obj t => deepClone t
    | .src s => parse s

/-- The match run proper, on the already folded program tree: split the
template body into primary target and peers (lines 93–98) and run either the
plain engine (no variables or `single`, line 101) or the variable search. -/
def matchRunOn (folded : JsVal)
    (parsed : JsVal × List String × List (String × JsVal))
    (cbs : VarCallbacks) (single : Bool) (fe fa : Nat) : Option MatchOut :=
  let structTree := parsed.1
  let order := parsed.2.1
  let body := getField structTree "body"
  let tp : JsVal × List JsVal :=
    match body with
    | vArr (.cons x r) => (x, toListE r)
    | vArr .nil => (vUndef, [])
    | _ => (if truthy body then body else structTree, [])
  let st0 : WST :=
    { values := order.map (fun n => (n, JFields.nil)), leftToSkip := [],
      blanks := [], mvars := [], root := none }
  if order.isEmpty || single then
    match step single fe (.cmt folded tp.1 tp.2) st0 with
    | none => none
    | some (ok, _, st1) => some ⟨ok, st1, none, []⟩
  else
    let ctx : MatchCtx := ⟨single, folded, tp.1, tp.2, order⟩
    let s0 : SearchST :=
      { skipData := order.map (fun n => (n, 0)), mst := st0,
        failure := none, errlog := [] }
    match anyLoop ctx cbs fe fa 0 (sdSet s0 (nthName order 0) 0) with
    | none => none
    | some (ok, s1) => some ⟨ok, s1.mst, s1.failure, s1.errlog⟩

/-- The body of `match` after the template has been parsed and annotated
(`parsed` = tree, `wVars.order`, updated template cache): obtain and fold
the program tree, update the program cache (the stored object is the folded
one, lines 90/92), and run the match. -/
def matchAfterParse (parse : String → JsVal) (caches : Caches)
    (code : SourceOrTree) (parsed : JsVal × List String × List (String × JsVal))
    (cbs : VarCallbacks) (single : Bool) (fe fa : Nat) :
    Option MatchOut × Caches :=
  (matchRunOn (foldConstants (codeTreeOf parse caches code)) parsed cbs single fe fa,
   { structureCache := parsed.2.2, cachedCode := some code,
     cachedCodeTree := foldConstants (codeTreeOf parse caches code) })

/-- `match` (source line 73; named `matchS` because `match` is a Lean
keyword).  `parse` abstracts the esprima collaborator; `fe`/`fa` are engine
and search fuel, `none` meaning fuel ran out, and a `(none, _)` result with
unlimited fuel corresponds to the source throwing on a malformed template.
The returned `Caches` are the module-level caches after the call. -/
def matchS (parse : String → JsVal) (caches : Caches) (code : SourceOrTree)
    (rawStructure : SourceOrTree) (cbs : VarCallbacks) (single : Bool)
    (fe fa : Nat) : Option MatchOut × Caches :=
  match parseStructureWithVars parse caches.structureCache rawStructure with
  | none => (none, caches)
  | some parsed => matchAfterParse parse caches code parsed cbs single fe fa

/-! ## Concrete esprima-shaped nodes for the test programs -/

def jId (n : String) : JsVal :=
  vObj (.cons "type" (vStr "Identifier") (.cons "name" (vStr n) .nil))

def jLit (n : Int) : JsVal :=
  vObj (.cons "type" (vStr "Literal") (.cons "value" (vNum n) .nil))

def jExprStmt (e : JsVal) : JsVal :=
  vObj (.cons "type" (vStr "ExpressionStatement") (.cons "expression" e .nil))

def jBin (op : String) (l r : JsVal) : JsVal :=
  vObj (.cons "type" (vStr "BinaryExpression") (.cons "operator" (vStr op)
    (.cons "left" l (.cons "right" r .nil))))

def jUnary (op : String) (a : JsVal) : JsVal :=
  vObj (.cons "type" (vStr "UnaryExpression") (.cons "operator" (vStr op)
    (.cons "argument" a .nil)))

def jProgram (stmts : List JsVal) : JsVal :=
  vObj (.cons "type" (vStr "Program") (.cons "body" (vArr (ofListE stmts)) .nil))

def jBlock (stmts : List JsVal) : JsVal :=
  vObj (.cons "type" (vStr "BlockStatement") (.cons "body" (vArr (ofListE stmts)) .nil))

/-- A parse collaborator that is never consulted (all inputs pre-parsed). -/
def noParse : String → JsVal := fun _ => vUndef

end Structured



namespace Structured

open JsVal JFields JElems

/-! ## Concrete programs and templates used by the claims -/

/-- Template body of `function() { $x + $x; }`. -/
def tmplXplusX : JsVal := jBlock [jExprStmt (jBin "+" (jId "$x") (jId "$x"))]

/-- Program `a + a;`. -/
def progAplusA : JsVal := jProgram [jExprStmt (jBin "+" (jId "a") (jId "a"))]

/-- Program `a + b;`. -/
def progAplusB : JsVal := jProgram [jExprStmt (jBin "+" (jId "a") (jId "b"))]

/-- The `ok` outcome of a `matchS` call (`false` = `NoMatch`). -/
def matchOk (r : Option MatchOut × Caches) : Option Bool :=
  r.1.map MatchOut.ok

/-- A named variable's captured node in the match result. -/
def matchVar (r : Option MatchOut × Caches) (n : String) : Option JsVal :=
  match r.1 with
  | some o => alookup o.mst.mvars n
  | none => none

def stA : JsVal := jExprStmt (jLit 1)
def stB : JsVal := jExprStmt (jLit 2)
def stC : JsVal := jExprStmt (jLit 3)

/-- Template body `[glob_, C]` (a glob followed by a peer). -/
def tmplGlobC : JsVal := jBlock [jExprStmt (jId "glob_"), stC]

/-- Program body `[X, Y, C]`. -/
def progXYC : JsVal :=
  jProgram [jExprStmt (jId "x"), jExprStmt (jId "y"), stC]

/-- Program body `[X, Y]` (no `C` at all). -/
def progXY : JsVal := jProgram [jExprStmt (jId "x"), jExprStmt (jId "y")]

/-- Template body `$x;`. -/
def tmplDollarX : JsVal := jBlock [jExprStmt (jId "$x")]

/-- Program `a;`. -/
def progIdA : JsVal := jProgram [jExprStmt (jId "a")]

/-- C2.  A template using the same named variable twice aliases both
occurrences to one binding cell: `simplifyTree` turns the first `$x` into
the binding-site marker `{wildcardVar: "$x"}` and the second into a
reference to the cell (with `$x` registered once in `wVars.order`), and a
full match of `$x + $x` succeeds against `a + a` (binding `x` to the
identifier `a`) but fails against `a + b`. -/
theorem claim_C2 :
    simplifyTree tmplXplusX [] =
      (jBlock [jExprStmt (jBin "+" (vObj (.cons "wildcardVar" (vStr "$x") .nil))
        (vRef "$x"))], ["$x"]) ∧
    matchOk (matchS noParse emptyCaches (.obj progAplusA) (.obj tmplXplusX)
        [] false 100 100) = some true ∧
    matchVar (matchS noParse emptyCaches (.obj progAplusA) (.obj tmplXplusX)
        [] false 100 100) "x" = some (jId "a") ∧
    matchOk (matchS noParse emptyCaches (.obj progAplusB) (.obj tmplXplusX)
        [] false 100 100) = some false := by
  refine ⟨by decide, by decide, by decide, by decide⟩

/-- C4.  When the current target of a sequence scan is a glob, every
remaining element from the current position is consumed into the glob's
capture list unconditionally and the scan succeeds (with an empty capture
when no elements are left); peers listed after the glob are never checked:
`[glob_, C]` matches `[X, Y, C]` with the glob capturing all three
statements, and even matches `[X, Y]` where no `C` exists at all. -/
theorem claim_C4 :
    (∀ (single : Bool) (f : Nat) (arr : List JsVal) (toFind : JsVal)
        (peers : List JsVal) (st : WST) (g : String),
      isGlobS st.values toFind = some g →
      checkNodeArray single (f + 1) arr toFind peers st =
        some (true, peers, registerGlob g arr st)) ∧
    matchOk (matchS noParse emptyCaches (.obj progXYC) (.obj tmplGlobC)
        [] false 100 100) = some true ∧
    (matchS noParse emptyCaches (.obj progXYC) (.obj tmplGlobC)
        [] false 100 100).1.map MatchOut.mst =
      some { values := [], leftToSkip := [],
             blanks := [vArr (ofListE [jExprStmt (jId "x"), jExprStmt (jId "y"), stC])],
             mvars := [], root := none } ∧
    matchOk (matchS noParse emptyCaches (.obj progXY) (.obj tmplGlobC)
        [] false 100 100) = some true ∧
    matchOk (matchS noParse emptyCaches (.obj (jProgram [stA]))
        (.obj (jBlock [stA, jExprStmt (jId "glob_")])) [] false 100 100) = some true ∧
    (matchS noParse emptyCaches (.obj (jProgram [stA]))
        (.obj (jBlock [stA, jExprStmt (jId "glob_")])) [] false 100 100).1.map
      (fun o => o.mst.blanks) = some [vArr .nil] := by
  refine ⟨?_, by decide, ?_, by decide, by decide, ?_⟩
  · intro single f arr toFind peers st g h
    simp [checkNodeArray, step, h, lbranch]
  · decide
  · decide

/-- C4 witness: the glob rule applied at a concrete sequence. -/
theorem claim_C4_witness :
    isGlobS ([] : List (String × JFields)) (jId "glob_") = some "_" ∧
    checkNodeArray false 1 [stA, stB] (jId "glob_") [stC]
        ⟨[], [], [], [], none⟩ =
      some (true, [stC], registerGlob "_" [stA, stB] ⟨[], [], [], [], none⟩) := by
  refine ⟨by decide, claim_C4.1 false 0 [stA, stB] (jId "glob_") [stC]
    ⟨[], [], [], [], none⟩ "_" (by decide)⟩

/-- C5.  Sequence matching scans left to right, advancing to the next peer
after each exact match, so matched peers need not be contiguous
(`[A, B]` matches `[A, C, B]`) but must appear in order (`[B, A]` fails
against `[A, B]`); reaching the end of the sequence with a pending
non-glob target is a failure. -/
theorem claim_C5 :
    matchOk (matchS noParse emptyCaches (.obj (jProgram [stA, stC, stB]))
        (.obj (jBlock [stA, stB])) [] false 100 100) = some true ∧
    matchOk (matchS noParse emptyCaches (.obj (jProgram [stA, stB]))
        (.obj (jBlock [stB, stA])) [] false 100 100) = some false ∧
    (∀ (single : Bool) (f : Nat) (toFind : JsVal) (peers : List JsVal)
        (st : WST),
      isGlobS st.values toFind = none →
      checkNodeArray single (f + 1) [] toFind peers st =
        some (false, peers, st)) := by
  refine ⟨by decide, by decide, ?_⟩
  intro single f toFind peers st h
  simp [checkNodeArray, step, h, lbranch]

/-- C5 witness: an exhausted sequence with a pending non-glob target
fails. -/
theorem claim_C5_witness :
    isGlobS ([] : List (String × JFields)) stA = none ∧
    checkNodeArray false 1 [] stA [stB] ⟨[], [], [], [], none⟩ =
      some (false, [stB], ⟨[], [], [], [], none⟩) := by
  refine ⟨by decide, claim_C5.2.2 false 0 stA [stB] ⟨[], [], [], [], none⟩
    (by decide)⟩

/-- C7 counterexample.  A varCallback registered against `$zzz`, a name
absent from the template `$x;`, is claimed to be "treated as a rejection";
in fact the callback is still invoked (with `undefined` for the missing
variable) and an always-accepting callback lets the match succeed — the
configuration error is only logged. -/
theorem claim_C7_cex :
    matchOk (matchS noParse emptyCaches (.obj progIdA) (.obj tmplDollarX)
        [("$zzz", fun _ => vBool true)] false 100 100) = some true ∧
    (matchS noParse emptyCaches (.obj progIdA) (.obj tmplDollarX)
        [("$zzz", fun _ => vBool true)] false 100 100).1.map MatchOut.errlog =
      some ["Callback var $zzz doesn't exist"] := by
  refine ⟨by decide, by decide⟩

/-- C7 (amended).  A varCallback naming a variable absent from the template
has the configuration error logged on the console without aborting the
search; the callback is still invoked, receiving `undefined` in the missing
variable's position, and its return value decides acceptance as usual: an
always-accepting callback accepts (the match succeeds), and a rejecting
callback produces the normal no-match outcome. -/
theorem claim_C7 :
    matchOk (matchS noParse emptyCaches (.obj progIdA) (.obj tmplDollarX)
        [("$zzz", fun _ => vBool true)] false 100 100) = some true ∧
    (matchS noParse emptyCaches (.obj progIdA) (.obj tmplDollarX)
        [("$zzz", fun _ => vBool true)] false 100 100).1.map MatchOut.errlog =
      some ["Callback var $zzz doesn't exist"] ∧
    matchOk (matchS noParse emptyCaches (.obj progIdA) (.obj tmplDollarX)
        [("$zzz", fun args => vBool (decide (args = [vUndef])))] false 100 100) =
      some true ∧
    matchOk (matchS noParse emptyCaches (.obj progIdA) (.obj tmplDollarX)
        [("$zzz", fun _ => vBool false)] false 100 100) = some false ∧
    (matchS noParse emptyCaches (.obj progIdA) (.obj tmplDollarX)
        [("$zzz", fun _ => vBool false)] false 100 100).1.map MatchOut.errlog =
      some ["Callback var $zzz doesn't exist"] := by
  refine ⟨by decide, by decide, by decide, by decide, by decide⟩

/-- C3.  When exact node comparison reaches the binding-site marker
`{wildcardVar: n}` and the candidate lacks a `wildcardVar` property, the
whole candidate is treated as a candidate binding: with a positive
remaining-skip count the counter is decremented and the candidate rejected;
otherwise the candidate's fields are shallow-copied into the binding cell,
the binding is recorded in `matchResults.vars` under the name without its
sigil, and `matchResults.root` is set (to the candidate, provided it is not
the top-level `Program` node) if not already set. -/
theorem claim_C3 (single : Bool) (f : Nat) (curr : JsVal) (n : String)
    (peers : List JsVal) (st : WST)
    (h : getField curr "wildcardVar" = vUndef ∨ getField curr "wildcardVar" = vNull) :
    exactMatchNode single (f + 2) curr
        (vObj (.cons "wildcardVar" (vStr n) .nil)) peers st =
      if 0 < ltsGet st n then some (false, peers, ltsDec st n)
      else some (true, peers,
        applyRoot (if st.root = none && getField curr "type" ≠ vStr "Program"
            then some curr else none)
          (setMVar (extendCell st n (fieldsOf curr)) (strDrop n 1) curr)) := by
  rcases h with h | h <;>
    simp only [exactMatchNode, step, derefFind, toListF, h, strbranch] <;>
    split <;> simp_all [strbranch]

/-- C3 witness: binding the identifier `a` to `$x` with no skips left. -/
theorem claim_C3_witness :
    (getField (jId "a") "wildcardVar" = vUndef ∨
      getField (jId "a") "wildcardVar" = vNull) ∧
    exactMatchNode false 2 (jId "a")
        (vObj (.cons "wildcardVar" (vStr "$x") .nil)) []
        ⟨[("$x", JFields.nil)], [], [], [], none⟩ =
      some (true, [],
        ⟨[("$x", fieldsOf (jId "a"))], [], [], [("x", jId "a")], some (jId "a")⟩) := by
  refine ⟨Or.inl (by decide), ?_⟩
  have h := claim_C3 false 0 (jId "a") "$x" []
    ⟨[("$x", JFields.nil)], [], [], [], none⟩ (Or.inl (by decide))
  simpa using h

/-- C10.  A template field holding an empty array constrains the candidate
only to have a present, array-valued field of the same name: any candidate
array (of any length and contents) passes, and a missing field or a
non-array value fails the node. -/
theorem claim_C10 (single : Bool) (f : Nat) (curr : JsVal) (k : String)
    (peers : List JsVal) (st : WST) :
    (∀ es : JElems, getField curr k = vArr es →
      exactMatchNode single (f + 3) curr (vObj (.cons k (vArr .nil) .nil)) peers st =
        some (true, peers,
          applyRoot (if st.root = none && getField curr "type" ≠ vStr "Program"
              then some curr else none) st)) ∧
    (getField curr k = vUndef → k ≠ "wildcardVar" →
      exactMatchNode single (f + 3) curr (vObj (.cons k (vArr .nil) .nil)) peers st =
        some (false, peers, st)) ∧
    (¬ isArrayJ (getField curr k) → getField curr k ≠ vUndef →
      getField curr k ≠ vNull →
      exactMatchNode single (f + 3) curr (vObj (.cons k (vArr .nil) .nil)) peers st =
        some (false, peers, st)) := by
  refine ⟨?_, ?_, ?_⟩
  · intro es h
    simp [exactMatchNode, step, derefFind, toListF, h, isObjectJ, isArrayJ, typeofJ, arrbranch, obranch, lbranch]
  · intro h hk
    simp [exactMatchNode, step, derefFind, toListF, h, hk]
  · intro ha hu hn
    rcases hv : getField curr k with s | m | b | _ | _ | fs | es | r <;>
      simp_all [exactMatchNode, step, derefFind, toListF, isObjectJ, isArrayJ, typeofJ]

/-- C10 witness: an empty template array accepts a candidate array with
elements, rejects a missing field and a non-array field. -/
theorem claim_C10_witness :
    (getField (jProgram [stA]) "body" = vArr (ofListE [stA]) ∧
      exactMatchNode false 3 (jProgram [stA])
          (vObj (.cons "body" (vArr .nil) .nil)) [] ⟨[], [], [], [], none⟩ =
        some (true, [],
          applyRoot (if (none : Option JsVal) = none &&
              getField (jProgram [stA]) "type" ≠ vStr "Program"
              then some (jProgram [stA]) else none) ⟨[], [], [], [], none⟩)) ∧
    (getField (jId "a") "body" = vUndef ∧
      exactMatchNode false 3 (jId "a")
          (vObj (.cons "body" (vArr .nil) .nil)) [] ⟨[], [], [], [], none⟩ =
        some (false, [], ⟨[], [], [], [], none⟩)) ∧
    (¬ isArrayJ (getField (jExprStmt (jId "a")) "expression") ∧
      exactMatchNode false 3 (jExprStmt (jId "a"))
          (vObj (.cons "expression" (vArr .nil) .nil)) [] ⟨[], [], [], [], none⟩ =
        some (false, [], ⟨[], [], [], [], none⟩)) := by
  refine ⟨⟨by decide, ?_⟩, ⟨by decide, ?_⟩, ⟨by decide, ?_⟩⟩
  · exact (claim_C10 false 0 (jProgram [stA]) "body" [] ⟨[], [], [], [], none⟩).1
      (ofListE [stA]) (by decide)
  · exact (claim_C10 false 0 (jId "a") "body" [] ⟨[], [], [], [], none⟩).2.1
      (by decide) (by decide)
  · exact (claim_C10 false 0 (jExprStmt (jId "a")) "expression" []
      ⟨[], [], [], [], none⟩).2.2 (by decide) (by decide) (by decide)

/-- C6.  Constant folding rewrites exactly the unary `-`/`+` applications
to a numeric literal (into the literal with the folded value) and nothing
else; applied to both trees, it makes a template written `-5` match a
program written as unary minus applied to `5`, and folds nested signs
bottom-up. -/
theorem claim_C6 :
    (∀ (fs afs : JFields) (n : Int),
      getF fs "type" = vStr "UnaryExpression" →
      getF fs "argument" = vObj afs →
      getF afs "type" = vStr "Literal" →
      getF afs "value" = vNum n →
      (getF fs "operator" = vStr "-" →
        tryFold (vObj fs) = vObj (setF afs "value" (vNum (-n)))) ∧
      (getF fs "operator" = vStr "+" →
        tryFold (vObj fs) = vObj (setF afs "value" (vNum n)))) ∧
    (∀ v : JsVal, tryFold v ≠ v →
      ∃ fs afs n, v = vObj fs ∧
        getF fs "type" = vStr "UnaryExpression" ∧
        getF fs "argument" = vObj afs ∧
        getF afs "type" = vStr "Literal" ∧
        getF afs "value" = vNum n ∧
        (getF fs "operator" = vStr "-" ∨ getF fs "operator" = vStr "+")) ∧
    foldConstants (jProgram [jExprStmt (jUnary "-" (jLit 5))]) =
      jProgram [jExprStmt (jLit (-5))] ∧
    foldConstants (jProgram [jExprStmt (jUnary "-" (jUnary "-" (jLit 5)))]) =
      jProgram [jExprStmt (jLit 5)] ∧
    matchOk (matchS noParse emptyCaches
        (.obj (jProgram [jExprStmt (jUnary "-" (jLit 5))]))
        (.obj (jBlock [jExprStmt (jUnary "-" (jLit 5))])) [] false 100 100) =
      some true := by
  refine ⟨?_, ?_, by decide, by decide, by decide⟩
  · intro fs afs n h1 h2 h3 h4
    constructor <;> intro hop <;> simp [tryFold, h1, h2, h3, h4, hop]
  · intro v h
    cases v with
    | vObj fs =>
      by_cases h1 : getF fs "type" = vStr "UnaryExpression"
      · rcases harg : getF fs "argument" with s | m | b | _ | _ | afs | es | r <;>
          simp only [tryFold, if_pos h1, harg] at h <;>
          try exact absurd rfl h
        by_cases h3 : getF afs "type" = vStr "Literal"
        · rcases hval : getF afs "value" with s | m | b | _ | _ | gs | es | r <;>
            simp only [if_pos h3, hval] at h <;> try exact absurd rfl h
          by_cases hm : getF fs "operator" = vStr "-"
          · exact ⟨fs, afs, m, rfl, h1, harg, h3, hval, Or.inl hm⟩
          · by_cases hp : getF fs "operator" = vStr "+"
            · exact ⟨fs, afs, m, rfl, h1, harg, h3, hval, Or.inr hp⟩
            · simp only [if_neg hm, if_neg hp] at h
              exact absurd rfl h
        · simp only [if_neg h3] at h
          exact absurd rfl h
      · simp only [tryFold, if_neg h1] at h
        exact absurd rfl h
    | vStr s => exact absurd rfl h
    | vNum m => exact absurd rfl h
    | vBool b => exact absurd rfl h
    | vNull => exact absurd rfl h
    | vUndef => exact absurd rfl h
    | vArr es => exact absurd rfl h
    | vRef r => exact absurd rfl h

/-- C6 witness: the fold rule applied at the concrete node for `-5`. -/
theorem claim_C6_witness :
    tryFold (jUnary "-" (jLit 5)) = jLit (-5) := by
  have h := (claim_C6.1 (fieldsOf (jUnary "-" (jLit 5))) (fieldsOf (jLit 5)) 5
    (by decide) (by decide) (by decide) (by decide)).1 (by decide)
  simpa using h

/-! ## Idempotence of constant folding (used by C8) -/

theorem getF_setF_ne : (fs : JFields) → (key k : String) → (v : JsVal) →
    key ≠ k → getF (setF fs key v) k = getF fs k
  | .nil, key, k, v, h => by simp [setF, getF, h]
  | .cons k0 w r, key, k, v, h => by
    by_cases hk : k0 = key
    · subst hk
      simp [setF, getF, h]
    · simp [setF, hk, getF, getF_setF_ne r key k v h]

theorem getF_foldConstantsF : (fs : JFields) → (k : String) →
    getF (foldConstantsF fs) k =
      (if isObjectJ (getF fs k) then tryFold (foldConstants (getF fs k))
       else getF fs k)
  | .nil, k => by simp [foldConstantsF, getF, isObjectJ]
  | .cons k0 v r, k => by
    by_cases hk : k0 = k
    · subst hk
      simp [foldConstantsF, getF]
    · simp [foldConstantsF, getF, hk, getF_foldConstantsF r k]

theorem foldConstantsF_setF_num : (fs : JFields) → (k : String) → (m : Int) →
    foldConstantsF (setF fs k (vNum m)) = setF (foldConstantsF fs) k (vNum m)
  | .nil, k, m => by simp [setF, foldConstantsF, isObjectJ]
  | .cons k0 v r, k, m => by
    by_cases hk : k0 = k
    · subst hk
      simp [setF, foldConstantsF, isObjectJ]
    · simp [setF, hk, foldConstantsF, foldConstantsF_setF_num r k m]

theorem tryFold_vObj (fs : JFields) : ∃ gs, tryFold (vObj fs) = vObj gs := by
  unfold tryFold
  repeat' first
  | exact ⟨_, rfl⟩
  | split

theorem isObjectJ_foldConstants (v : JsVal) :
    isObjectJ (foldConstants v) = isObjectJ v := by
  cases v <;> simp [foldConstants, isObjectJ]

theorem isObjectJ_tryFold (v : JsVal) : isObjectJ (tryFold v) = isObjectJ v := by
  cases v <;> try rfl
  case vObj fs =>
    obtain ⟨gs, hg⟩ := tryFold_vObj fs
    rw [hg]
    rfl

theorem tryFold_idem (v : JsVal) : tryFold (tryFold v) = tryFold v := by
  cases v <;> try rfl
  case vObj fs =>
  by_cases h1 : getF fs "type" = vStr "UnaryExpression"
  · rcases harg : getF fs "argument" with s | m | b | _ | _ | afs | es | r
    all_goals try
      (have e : tryFold (vObj fs) = vObj fs := by simp [tryFold, h1, harg]
       rw [e, e])
    by_cases h3 : getF afs "type" = vStr "Literal"
    · rcases hval : getF afs "value" with s | m | b | _ | _ | gs | es | r
      all_goals try
        (have e : tryFold (vObj fs) = vObj fs := by
           simp [tryFold, h1, harg, h3, hval]
         rw [e, e])
      have hty : ∀ w, getF (setF afs "value" w) "type" = vStr "Literal" := by
        intro w
        rw [getF_setF_ne afs "value" "type" w (by decide)]
        exact h3
      by_cases hm : getF fs "operator" = vStr "-"
      · have e : tryFold (vObj fs) = vObj (setF afs "value" (vNum (-m))) := by
          simp [tryFold, h1, harg, h3, hval, hm]
        rw [e]
        simp [tryFold, hty]
      · by_cases hp : getF fs "operator" = vStr "+"
        · have e : tryFold (vObj fs) = vObj (setF afs "value" (vNum m)) := by
            simp [tryFold, h1, harg, h3, hval, hm, hp]
          rw [e]
          simp [tryFold, hty]
        · have e : tryFold (vObj fs) = vObj fs := by
            simp [tryFold, h1, harg, h3, hval, hm, hp]
          rw [e, e]
    · have e : tryFold (vObj fs) = vObj fs := by simp [tryFold, h1, harg, h3]
      rw [e, e]
  · have e : tryFold (vObj fs) = vObj fs := by simp [tryFold, h1]
    rw [e, e]

theorem tryFold_fold_entry_of_fixed (fs : JFields)
    (h : foldConstantsF fs = fs) (k : String)
    (hobj : isObjectJ (getF fs k)) :
    tryFold (foldConstants (getF fs k)) = getF fs k := by
  have h2 := getF_foldConstantsF fs k
  rw [h, if_pos hobj] at h2
  exact h2.symm

theorem foldConstants_tryFold_of_fixed (u : JsVal)
    (hu : foldConstants u = u) :
    foldConstants (tryFold u) = tryFold u := by
  cases u <;> try exact hu
  case vObj fs =>
  have hFs : foldConstantsF fs = fs := by
    have := hu
    simp only [foldConstants] at this
    exact JsVal.vObj.inj this
  by_cases h1 : getF fs "type" = vStr "UnaryExpression"
  · rcases harg : getF fs "argument" with s | m | b | _ | _ | afs | es | r
    all_goals try
      (have e : tryFold (vObj fs) = vObj fs := by simp [tryFold, h1, harg]
       rw [e]; exact hu)
    by_cases h3 : getF afs "type" = vStr "Literal"
    · rcases hval : getF afs "value" with s | m | b | _ | _ | gs | es | r
      all_goals try
        (have e : tryFold (vObj fs) = vObj fs := by
           simp [tryFold, h1, harg, h3, hval]
         rw [e]; exact hu)
      -- the argument node is itself fold-fixed: foldConstantsF afs = afs
      have h5 := tryFold_fold_entry_of_fixed fs hFs "argument"
        (by rw [harg]; rfl)
      rw [harg] at h5
      simp only [foldConstants] at h5
      have h7 : getF (foldConstantsF afs) "type" = vStr "Literal" := by
        have := getF_foldConstantsF afs "type"
        rw [h3] at this
        simpa [isObjectJ] using this
      have h8 : tryFold (vObj (foldConstantsF afs)) = vObj (foldConstantsF afs) := by
        simp [tryFold, h7]
      have hAfs : foldConstantsF afs = afs := JsVal.vObj.inj (h8.symm.trans h5)
      have hFold : ∀ w : Int, foldConstants (vObj (setF afs "value" (vNum w))) =
          vObj (setF afs "value" (vNum w)) := by
        intro w
        simp only [foldConstants]
        rw [foldConstantsF_setF_num, hAfs]
      by_cases hm : getF fs "operator" = vStr "-"
      · have e : tryFold (vObj fs) = vObj (setF afs "value" (vNum (-m))) := by
          simp [tryFold, h1, harg, h3, hval, hm]
        rw [e]
        exact hFold (-m)
      · by_cases hp : getF fs "operator" = vStr "+"
        · have e : tryFold (vObj fs) = vObj (setF afs "value" (vNum m)) := by
            simp [tryFold, h1, harg, h3, hval, hm, hp]
          rw [e]
          exact hFold m
        · have e : tryFold (vObj fs) = vObj fs := by
            simp [tryFold, h1, harg, h3, hval, hm, hp]
          rw [e]
          exact hu
    · have e : tryFold (vObj fs) = vObj fs := by simp [tryFold, h1, harg, h3]
      rw [e]; exact hu
  · have e : tryFold (vObj fs) = vObj fs := by simp [tryFold, h1]
    rw [e]; exact hu

mutual

theorem foldConstants_idem : (v : JsVal) →
    foldConstants (foldConstants v) = foldConstants v
  | vStr _ => rfl
  | vNum _ => rfl
  | vBool _ => rfl
  | vNull => rfl
  | vUndef => rfl
  | vRef _ => rfl
  | vObj fs => by
    simp only [foldConstants]
    exact congrArg vObj (foldConstantsF_idem fs)
  | vArr es => by
    simp only [foldConstants]
    exact congrArg vArr (foldConstantsE_idem es)

theorem foldConstantsF_idem : (fs : JFields) →
    foldConstantsF (foldConstantsF fs) = foldConstantsF fs
  | .nil => rfl
  | .cons k v r => by
    simp only [foldConstantsF]
    rw [foldConstantsF_idem r]
    congr 1
    by_cases hobj : isObjectJ v
    · rw [if_pos hobj]
      have hobj2 : isObjectJ (tryFold (foldConstants v)) = true := by
        rw [isObjectJ_tryFold, isObjectJ_foldConstants]
        exact hobj
      rw [if_pos hobj2]
      rw [foldConstants_tryFold_of_fixed (foldConstants v) (foldConstants_idem v)]
      exact tryFold_idem _
    · rw [if_neg hobj, if_neg hobj]

theorem foldConstantsE_idem : (es : JElems) →
    foldConstantsE (foldConstantsE es) = foldConstantsE es
  | .nil => rfl
  | .cons x r => by
    simp only [foldConstantsE]
    rw [foldConstantsE_idem r]
    congr 1
    by_cases hobj : isObjectJ x
    · rw [if_pos hobj]
      have hobj2 : isObjectJ (tryFold (foldConstants x)) = true := by
        rw [isObjectJ_tryFold, isObjectJ_foldConstants]
        exact hobj
      rw [if_pos hobj2]
      rw [foldConstants_tryFold_of_fixed (foldConstants x) (foldConstants_idem x)]
      exact tryFold_idem _
    · rw [if_neg hobj, if_neg hobj]

end

/-- C8.  For a template with no named variables, matching is idempotent:
after a first `match(P, T)` call has populated the caches (storing the
constant-folded program tree, which the second call folds again —
idempotently) a second identical call returns an identical result.  The
hypothesis `h2` says the template parse is reproducible from the updated
template cache (the cached tree survives its JSON round trip, true of
parser output). -/
theorem claim_C8 (parse : String → JsVal) (c0 : Caches) (P T : SourceOrTree)
    (cbs : VarCallbacks) (fe fa : Nat)
    (h1 : ∀ p, parseStructureWithVars parse c0.structureCache T = some p →
      p.2.1 = ([] : List String))
    (h2 : parseStructureWithVars parse
        (matchS parse c0 P T cbs false fe fa).2.structureCache T =
      parseStructureWithVars parse c0.structureCache T) :
    (matchS parse (matchS parse c0 P T cbs false fe fa).2 P T cbs false fe fa).1 =
      (matchS parse c0 P T cbs false fe fa).1 := by
  cases hp : parseStructureWithVars parse c0.structureCache T with
  | none =>
    have hm1 : matchS parse c0 P T cbs false fe fa = (none, c0) := by
      simp [matchS, hp]
    simp [hm1, matchS, hp]
  | some p =>
    obtain ⟨tr, ord, sc'⟩ := p
    have hord : ord = [] := h1 _ hp
    subst hord
    have hm1 : matchS parse c0 P T cbs false fe fa =
        matchAfterParse parse c0 P (tr, [], sc') cbs false fe fa := by
      simp [matchS, hp]
    have hc1 : (matchS parse c0 P T cbs false fe fa).2 =
        ({ structureCache := sc', cachedCode := some P,
           cachedCodeTree := foldConstants (codeTreeOf parse c0 P) } : Caches) := by
      rw [hm1]; rfl
    have h2' : parseStructureWithVars parse
        (({ structureCache := sc', cachedCode := some P,
            cachedCodeTree := foldConstants (codeTreeOf parse c0 P) } : Caches)).structureCache
        T = some (tr, [], sc') := by
      rw [← hc1, h2, hp]
    have hm2 : matchS parse (matchS parse c0 P T cbs false fe fa).2 P T cbs false fe fa =
        matchAfterParse parse
          ({ structureCache := sc', cachedCode := some P,
             cachedCodeTree := foldConstants (codeTreeOf parse c0 P) } : Caches)
          P (tr, [], sc') cbs false fe fa := by
      rw [hc1]
      simp [matchS, h2']
    rw [hm2, hm1]
    simp only [matchAfterParse]
    have hct : codeTreeOf parse
        ({ structureCache := sc', cachedCode := some P,
           cachedCodeTree := foldConstants (codeTreeOf parse c0 P) } : Caches) P =
        foldConstants (codeTreeOf parse c0 P) := by
      simp [codeTreeOf]
    rw [hct, foldConstants_idem]

/-- C8 witness: the variable-free template `{1;}` against `a + a`, run
twice through the caches. -/
theorem claim_C8_witness :
    (matchS noParse
        (matchS noParse emptyCaches (.obj progAplusA) (.obj (jBlock [stA]))
          [] false 100 100).2
        (.obj progAplusA) (.obj (jBlock [stA])) [] false 100 100).1 =
      (matchS noParse emptyCaches (.obj progAplusA) (.obj (jBlock [stA]))
        [] false 100 100).1 := by
  refine claim_C8 noParse emptyCaches (.obj progAplusA) (.obj (jBlock [stA]))
    [] 100 100 ?_ (by decide)
  intro p hp
  rw [show parseStructureWithVars noParse emptyCaches.structureCache
      (SourceOrTree.obj (jBlock [stA])) =
      some (jBlock [stA], ([] : List String), ([] : List (String × JsVal)))
    from by decide] at hp
  cases hp
  rfl

/-- C9.  A pre-parsed program tree supplied by the caller is never the tree
the engine works on: on a cache miss the tree obtained is `deepClone P`
(the JSON round trip) and the cache afterwards holds the folded clone; on a
cache hit the previously made clone is reused untouched by `P`; and the
final conjunct shows the clone is load-bearing — constant folding really
rewrites some trees, so folding `P` in place would be an observable
mutation of the caller's object. -/
theorem claim_C9 (parse : String → JsVal) (c : Caches) (P : JsVal)
    (T : SourceOrTree) (cbs : VarCallbacks) (single : Bool) (fe fa : Nat)
    (hmiss : c.cachedCode ≠ some (.obj P))
    (hT : parseStructureWithVars parse c.structureCache T ≠ none) :
    codeTreeOf parse c (.obj P) = deepClone P ∧
    (matchS parse c (.obj P) T cbs single fe fa).2.cachedCodeTree =
      some (foldConstants (deepClone P)) ∧
    (∀ c' : Caches, c'.cachedCode = some (.obj P) →
      codeTreeOf parse c' (.obj P) = c'.cachedCodeTree.getD vUndef) ∧
    foldConstants (deepClone (jExprStmt (jUnary "-" (jLit 5)))) ≠
      jExprStmt (jUnary "-" (jLit 5)) := by
  refine ⟨?_, ?_, ?_, by decide⟩
  · simp [codeTreeOf, hmiss]
  · cases hp : parseStructureWithVars parse c.structureCache T with
    | none => exact absurd hp hT
    | some p =>
      simp [matchS, hp, matchAfterParse, codeTreeOf, hmiss]
  · intro c' h
    simp [codeTreeOf, h]

/-- C9 witness: a concrete miss-then-cache round for the tree `a + a;`. -/
theorem claim_C9_witness :
    codeTreeOf noParse emptyCaches (.obj progAplusA) = deepClone progAplusA ∧
    (matchS noParse emptyCaches (.obj progAplusA) (.obj (jBlock [stA]))
        [] false 100 100).2.cachedCodeTree =
      some (foldConstants (deepClone progAplusA)) := by
  have h := claim_C9 noParse emptyCaches progAplusA (.obj (jBlock [stA]))
    [] false 100 100 (by decide) (by decide)
  exact ⟨h.1, h.2.1⟩


/-! ## C1: termination of the variable search

The engine decrements a variable's `leftToSkip` at most once per `step`
call, and a call at fuel `f` makes at most two sequential calls at fuel
`f - 1`, so a run at fuel `f` decrements at most `2 ^ f` times and can
never bind a variable whose remaining-skip count is at least `2 ^ f` — its
binding cell survives the run untouched.  That is the loop-exit mechanism
of `anyPossible`: once the skip count of the variable at the current index
passes the bound, the run leaves its (cleared) cell empty and the
`do … while` loop returns `false`. -/

theorem step_cmt (single : Bool) (f : Nat) (curr toFind : JsVal)
    (peers : List JsVal) (st : WST) :
    step single (f + 1) (.cmt curr toFind peers) st =
      obranch (fun p1 st1 => some (true, p1, st1))
        (fun p1 st1 =>
          if single then some (false, p1, st1)
          else step single f (.cmtKids (childrenOf curr) toFind p1) st1)
        (step single f (.emn curr toFind peers) st) := rfl

theorem step_cmtKids_nil (single : Bool) (f : Nat) (toFind : JsVal)
    (peers : List JsVal) (st : WST) :
    step single (f + 1) (.cmtKids [] toFind peers) st =
      some (false, peers, st) := rfl

theorem step_cmtKids_cons (single : Bool) (f : Nat) (x : JsVal)
    (rest : List JsVal) (toFind : JsVal) (peers : List JsVal) (st : WST) :
    step single (f + 1) (.cmtKids (x :: rest) toFind peers) st =
      (if isObjectJ x then
        obranch (fun p1 st1 => some (true, p1, st1))
          (fun p1 st1 => step single f (.cmtKids rest toFind p1) st1)
          (if isArrayJ x then step single f (.cna (elemsList x) toFind peers) st
           else step single f (.cmt x toFind peers) st)
      else step single f (.cmtKids rest toFind peers) st) := rfl

theorem step_emn (single : Bool) (f : Nat) (curr toFind : JsVal)
    (peers : List JsVal) (st : WST) :
    step single (f + 1) (.emn curr toFind peers) st =
      step single f
        (.emnFields curr (derefFind st toFind).2 (derefFind st toFind).1
          (if st.root = none && getField curr "type" ≠ vStr "Program"
           then some curr else none) peers) st := rfl

theorem step_emnFields_nil (single : Bool) (f : Nat) (curr : JsVal)
    (tfUndef : Bool) (rootToSet : Option JsVal) (peers : List JsVal)
    (st : WST) :
    step single (f + 1) (.emnFields curr tfUndef [] rootToSet peers) st =
      some (true, peers,
        applyRoot rootToSet (if tfUndef then pushBlank st curr else st)) := rfl

theorem step_emnFields_cons (single : Bool) (f : Nat) (curr : JsVal)
    (tfUndef : Bool) (k : String) (subFind : JsVal)
    (rest : List (String × JsVal)) (rootToSet : Option JsVal)
    (peers : List JsVal) (st : WST) :
    step single (f + 1)
        (.emnFields curr tfUndef ((k, subFind) :: rest) rootToSet peers) st =
      (if subFind = vNull then
        step single f (.emnFields curr tfUndef rest rootToSet peers) st
      else if subFind = vUndef then
        if getField curr k = vNull || getField curr k = vUndef then
          some (false, peers, st)
        else
          step single f (.emnFields curr tfUndef rest rootToSet peers)
            (if truthy (getField (getField curr k) "body") then st
             else pushBlank st (getField curr k))
      else if getField curr k = vUndef || getField curr k = vNull then
        if k = "wildcardVar" then
          strbranch
            (fun n =>
              if 0 < ltsGet st n then some (false, peers, ltsDec st n)
              else
                some (true, peers,
                  applyRoot rootToSet
                    (setMVar (extendCell st n (fieldsOf curr))
                      (strDrop n 1) curr)))
            (some (false, peers, st)) subFind
        else some (false, peers, st)
      else if isObjectJ (getField curr k) ≠ isObjectJ subFind ||
          isArrayJ (getField curr k) ≠ isArrayJ subFind ||
          typeofJ (getField curr k) ≠ typeofJ subFind then
        some (false, peers, st)
      else if isArrayJ (getField curr k) then
        arrbranch
          (step single f (.emnFields curr tfUndef rest rootToSet peers) st)
          (fun tf0 ptail =>
            obranch
              (fun _ st1 =>
                step single f (.emnFields curr tfUndef rest rootToSet peers) st1)
              (fun _ st1 => some (false, peers, st1))
              (step single f
                (.cna (elemsList (getField curr k)) tf0 (toListE ptail)) st))
          (some (false, peers, st)) subFind
      else if isObjectJ (getField curr k) then
        obranch
          (fun p1 st1 =>
            step single f (.emnFields curr tfUndef rest rootToSet p1) st1)
          (fun p1 st1 => some (false, p1, st1))
          (step single f (.cmt (getField curr k) subFind peers) st)
      else if getField curr k = subFind then
        step single f (.emnFields curr tfUndef rest rootToSet peers) st
      else some (false, peers, st)) := rfl

theorem step_cna (single : Bool) (f : Nat) (arr : List JsVal)
    (toFind : JsVal) (peers : List JsVal) (st : WST) :
    step single (f + 1) (.cna arr toFind peers) st =
      (match isGlobS st.values toFind with
      | some g => some (true, peers, registerGlob g arr st)
      | none =>
        lbranch (some (false, peers, st))
          (fun x rest =>
            obranch
              (fun p1 st1 =>
                lbranch (some (true, [], st1))
                  (fun tf1 pr => step single f (.cna rest tf1 pr) st1) p1)
              (fun p1 st1 => step single f (.cna rest toFind p1) st1)
              (step single f (.cmt x toFind peers) st)) arr) := rfl

theorem applyRoot_values (r : Option JsVal) (st : WST) :
    (applyRoot r st).values = st.values := by cases r <;> rfl

theorem applyRoot_lts (r : Option JsVal) (st : WST) :
    (applyRoot r st).leftToSkip = st.leftToSkip := by cases r <;> rfl

theorem ltsGet_applyRoot (r : Option JsVal) (st : WST) (w : String) :
    ltsGet (applyRoot r st) w = ltsGet st w := by
  simp [ltsGet, applyRoot_lts]

theorem pushBlank_values (st : WST) (v : JsVal) :
    (pushBlank st v).values = st.values := rfl

theorem ltsGet_pushBlank (st : WST) (v : JsVal) (w : String) :
    ltsGet (pushBlank st v) w = ltsGet st w := rfl

theorem setMVar_values (st : WST) (k : String) (v : JsVal) :
    (setMVar st k v).values = st.values := rfl

theorem ltsGet_setMVar (st : WST) (k : String) (v : JsVal) (w : String) :
    ltsGet (setMVar st k v) w = ltsGet st w := rfl

theorem registerGlob_values (g : String) (cap : List JsVal) (st : WST) :
    (registerGlob g cap st).values = st.values := by
  unfold registerGlob
  by_cases h : g = "_" <;> simp [h, pushBlank, setMVar]

theorem ltsGet_registerGlob (g : String) (cap : List JsVal) (st : WST)
    (w : String) : ltsGet (registerGlob g cap st) w = ltsGet st w := by
  unfold registerGlob ltsGet
  by_cases h : g = "_" <;> simp [h, pushBlank, setMVar]

theorem alookup_aset_ne {α : Type} (l : List (String × α)) (k w : String)
    (x : α) (h : k ≠ w) : alookup (aset l k x) w = alookup l w := by
  induction l with
  | nil => simp [aset, alookup, h]
  | cons p r ih =>
    obtain ⟨k0, v0⟩ := p
    by_cases hk : k0 = k
    · subst hk
      simp [aset, alookup, h]
    · simp [aset, hk, alookup, ih]

theorem alookup_aset_self {α : Type} (l : List (String × α)) (k : String)
    (x : α) : alookup (aset l k x) k = some x := by
  induction l with
  | nil => simp [aset, alookup]
  | cons p r ih =>
    obtain ⟨k0, v0⟩ := p
    by_cases hk : k0 = k
    · subst hk
      simp [aset, alookup]
    · simp [aset, hk, alookup, ih]

theorem ltsGet_ltsDec_ne (st : WST) (n w : String) (h : n ≠ w) :
    ltsGet (ltsDec st n) w = ltsGet st w := by
  simp [ltsGet, ltsDec, alookup_aset_ne _ _ _ _ h]

theorem ltsGet_ltsDec_self (st : WST) (n : String) :
    ltsGet (ltsDec st n) n = ltsGet st n - 1 := by
  simp [ltsGet, ltsDec, alookup_aset_self]

theorem ltsDec_values (st : WST) (n : String) :
    (ltsDec st n).values = st.values := rfl

theorem ltsGet_extendCell (st : WST) (n : String) (fs : JFields)
    (w : String) : ltsGet (extendCell st n fs) w = ltsGet st w := rfl

theorem extendCell_values_ne (st : WST) (n w : String) (fs : JFields)
    (h : n ≠ w) :
    alookup (extendCell st n fs).values w = alookup st.values w := by
  simp [extendCell, alookup_aset_ne _ _ _ _ h]

/-- The cell-preservation bound: an engine call at fuel `f` on a state
where variable `v` still has at least `2 ^ f` skips left neither touches
`v`'s binding cell nor uses up more than `2 ^ f` of its skips. -/
theorem step_preserve (single : Bool) (v : String) : ∀ (f : Nat) (c : ECall)
    (st : WST) (b : Bool) (p : List JsVal) (st' : WST),
    step single f c st = some (b, p, st') → 2 ^ f ≤ ltsGet st v →
    alookup st'.values v = alookup st.values v ∧
    ltsGet st v ≤ ltsGet st' v + 2 ^ f := by
  intro f
  induction f with
  | zero => intro c st b p st' h _; simp [step] at h
  | succ f ih =>
    intro c st b p st' h hB
    have hpow : (2 : Nat) ^ (f + 1) = 2 ^ f + 2 ^ f := by
      rw [pow_succ]; omega
    have hpos : (1 : Nat) ≤ 2 ^ f := Nat.one_le_two_pow
    cases c with
    | cmt curr toFind peers =>
      rw [step_cmt] at h
      rcases hemn : step single f (.emn curr toFind peers) st with _ | ⟨b1, p1, st1⟩
      · rw [hemn] at h; simp [obranch] at h
      · rw [hemn] at h
        have h1 := ih _ _ _ _ _ hemn (by omega)
        cases b1 with
        | true =>
          simp only [obranch, Option.some.injEq, Prod.mk.injEq] at h
          obtain ⟨-, -, hst⟩ := h
          subst hst
          exact ⟨h1.1, by omega⟩
        | false =>
          simp only [obranch] at h
          by_cases hs : single = true
          · rw [if_pos hs] at h
            simp only [Option.some.injEq, Prod.mk.injEq] at h
            obtain ⟨-, -, hst⟩ := h
            subst hst
            exact ⟨h1.1, by omega⟩
          · rw [if_neg hs] at h
            have h2 := ih _ _ _ _ _ h (by omega)
            exact ⟨h2.1.trans h1.1, by omega⟩
    | cmtKids kids toFind peers =>
      cases kids with
      | nil =>
        rw [step_cmtKids_nil] at h
        simp only [Option.some.injEq, Prod.mk.injEq] at h
        obtain ⟨-, -, hst⟩ := h
        subst hst
        exact ⟨rfl, by omega⟩
      | cons x rest =>
        rw [step_cmtKids_cons] at h
        by_cases hobj : isObjectJ x = true
        · rw [if_pos hobj] at h
          rcases hcall : (if isArrayJ x then
              step single f (.cna (elemsList x) toFind peers) st
            else step single f (.cmt x toFind peers) st) with _ | ⟨b1, p1, st1⟩
          · rw [hcall] at h; simp [obranch] at h
          · rw [hcall] at h
            have h1 : alookup st1.values v = alookup st.values v ∧
                ltsGet st v ≤ ltsGet st1 v + 2 ^ f := by
              by_cases ha : isArrayJ x = true
              · rw [if_pos ha] at hcall
                exact ih _ _ _ _ _ hcall (by omega)
              · rw [if_neg ha] at hcall
                exact ih _ _ _ _ _ hcall (by omega)
            cases b1 with
            | true =>
              simp only [obranch, Option.some.injEq, Prod.mk.injEq] at h
              obtain ⟨-, -, hst⟩ := h
              subst hst
              exact ⟨h1.1, by omega⟩
            | false =>
              simp only [obranch] at h
              have h2 := ih _ _ _ _ _ h (by omega)
              exact ⟨h2.1.trans h1.1, by omega⟩
        · rw [if_neg hobj] at h
          have h2 := ih _ _ _ _ _ h (by omega)
          exact ⟨h2.1, by omega⟩
    | emn curr toFind peers =>
      rw [step_emn] at h
      have h2 := ih _ _ _ _ _ h (by omega)
      exact ⟨h2.1, by omega⟩
    | emnFields curr tfUndef flds rootToSet peers =>
      cases flds with
      | nil =>
        rw [step_emnFields_nil] at h
        simp only [Option.some.injEq, Prod.mk.injEq] at h
        obtain ⟨-, -, hst⟩ := h
        subst hst
        refine ⟨?_, ?_⟩
        · rw [applyRoot_values]
          by_cases ht : tfUndef = true
          · rw [if_pos ht, pushBlank_values]
          · rw [if_neg ht]
        · rw [ltsGet_applyRoot]
          by_cases ht : tfUndef = true
          · rw [if_pos ht, ltsGet_pushBlank]
            omega
          · rw [if_neg ht]
            omega
      | cons kv rest =>
        obtain ⟨k, subFind⟩ := kv
        rw [step_emnFields_cons] at h
        by_cases h0 : subFind = vNull
        · rw [if_pos h0] at h
          have h2 := ih _ _ _ _ _ h (by omega)
          exact ⟨h2.1, by omega⟩
        · rw [if_neg h0] at h
          by_cases h1 : subFind = vUndef
          · rw [if_pos h1] at h
            by_cases h2 : (getField curr k = vNull || getField curr k = vUndef) = true
            · rw [if_pos h2] at h
              simp only [Option.some.injEq, Prod.mk.injEq] at h
              obtain ⟨-, -, hst⟩ := h
              subst hst
              exact ⟨rfl, by omega⟩
            · rw [if_neg h2] at h
              have h3 := ih _ _ _ _ _ h (by
                by_cases hb : truthy (getField (getField curr k) "body") = true
                · rw [if_pos hb]; omega
                · rw [if_neg hb, ltsGet_pushBlank]; omega)
              refine ⟨?_, ?_⟩
              · rw [h3.1]
                by_cases hb : truthy (getField (getField curr k) "body") = true
                · rw [if_pos hb]
                · rw [if_neg hb, pushBlank_values]
              · have h4 : ltsGet (if truthy (getField (getField curr k) "body") = true
                    then st else pushBlank st (getField curr k)) v = ltsGet st v := by
                  by_cases hb : truthy (getField (getField curr k) "body") = true
                  · rw [if_pos hb]
                  · rw [if_neg hb, ltsGet_pushBlank]
                rw [h4] at h3
                omega
          · rw [if_neg h1] at h
            by_cases h2 : (getField curr k = vUndef || getField curr k = vNull) = true
            · rw [if_pos h2] at h
              by_cases hk : k = "wildcardVar"
              · rw [if_pos hk] at h
                cases subFind with
                | vStr n =>
                  simp only [strbranch] at h
                  by_cases hlts : 0 < ltsGet st n
                  · rw [if_pos hlts] at h
                    simp only [Option.some.injEq, Prod.mk.injEq] at h
                    obtain ⟨-, -, hst⟩ := h
                    subst hst
                    refine ⟨by rw [ltsDec_values], ?_⟩
                    by_cases hnv : n = v
                    · subst hnv
                      rw [ltsGet_ltsDec_self]
                      omega
                    · rw [ltsGet_ltsDec_ne st n v hnv]
                      omega
                  · rw [if_neg hlts] at h
                    simp only [Option.some.injEq, Prod.mk.injEq] at h
                    obtain ⟨-, -, hst⟩ := h
                    subst hst
                    have hnv : n ≠ v := by
                      intro heq
                      subst heq
                      omega
                    refine ⟨?_, ?_⟩
                    · rw [applyRoot_values, setMVar_values]
                      exact extendCell_values_ne st n v _ hnv
                    · rw [ltsGet_applyRoot, ltsGet_setMVar, ltsGet_extendCell]
                      omega
                | vNum m =>
                  simp only [strbranch, Option.some.injEq, Prod.mk.injEq] at h
                  obtain ⟨-, -, hst⟩ := h
                  subst hst
                  exact ⟨rfl, by omega⟩
                | vBool b0 =>
                  simp only [strbranch, Option.some.injEq, Prod.mk.injEq] at h
                  obtain ⟨-, -, hst⟩ := h
                  subst hst
                  exact ⟨rfl, by omega⟩
                | vNull => exact absurd rfl h0
                | vUndef => exact absurd rfl h1
                | vObj fs =>
                  simp only [strbranch, Option.some.injEq, Prod.mk.injEq] at h
                  obtain ⟨-, -, hst⟩ := h
                  subst hst
                  exact ⟨rfl, by omega⟩
                | vArr es =>
                  simp only [strbranch, Option.some.injEq, Prod.mk.injEq] at h
                  obtain ⟨-, -, hst⟩ := h
                  subst hst
                  exact ⟨rfl, by omega⟩
                | vRef r =>
                  simp only [strbranch, Option.some.injEq, Prod.mk.injEq] at h
                  obtain ⟨-, -, hst⟩ := h
                  subst hst
                  exact ⟨rfl, by omega⟩
              · rw [if_neg hk] at h
                simp only [Option.some.injEq, Prod.mk.injEq] at h
                obtain ⟨-, -, hst⟩ := h
                subst hst
                exact ⟨rfl, by omega⟩
            · rw [if_neg h2] at h
              by_cases h3 : (decide (isObjectJ (getField curr k) ≠ isObjectJ subFind) ||
                  decide (isArrayJ (getField curr k) ≠ isArrayJ subFind) ||
                  decide (typeofJ (getField curr k) ≠ typeofJ subFind)) = true
              · rw [if_pos (by simpa using h3)] at h
                simp only [Option.some.injEq, Prod.mk.injEq] at h
                obtain ⟨-, -, hst⟩ := h
                subst hst
                exact ⟨rfl, by omega⟩
              · rw [if_neg (by simpa using h3)] at h
                by_cases h4 : isArrayJ (getField curr k) = true
                · rw [if_pos h4] at h
                  cases subFind with
                  | vArr es =>
                    cases es with
                    | nil =>
                      simp only [arrbranch] at h
                      have h5 := ih _ _ _ _ _ h (by omega)
                      exact ⟨h5.1, by omega⟩
                    | cons tf0 ptail =>
                      simp only [arrbranch] at h
                      rcases hcall : step single f
                          (.cna (elemsList (getField curr k)) tf0 (toListE ptail)) st
                        with _ | ⟨b1, p1, st1⟩
                      · rw [hcall] at h; simp [obranch] at h
                      · rw [hcall] at h
                        have hc1 := ih _ _ _ _ _ hcall (by omega)
                        cases b1 with
                        | true =>
                          simp only [obranch] at h
                          have h5 := ih _ _ _ _ _ h (by omega)
                          exact ⟨h5.1.trans hc1.1, by omega⟩
                        | false =>
                          simp only [obranch, Option.some.injEq, Prod.mk.injEq] at h
                          obtain ⟨-, -, hst⟩ := h
                          subst hst
                          exact ⟨hc1.1, by omega⟩
                  | vStr s0 =>
                    simp only [arrbranch, Option.some.injEq, Prod.mk.injEq] at h
                    obtain ⟨-, -, hst⟩ := h
                    subst hst
                    exact ⟨rfl, by omega⟩
                  | vNum m =>
                    simp only [arrbranch, Option.some.injEq, Prod.mk.injEq] at h
                    obtain ⟨-, -, hst⟩ := h
                    subst hst
                    exact ⟨rfl, by omega⟩
                  | vBool b0 =>
                    simp only [arrbranch, Option.some.injEq, Prod.mk.injEq] at h
                    obtain ⟨-, -, hst⟩ := h
                    subst hst
                    exact ⟨rfl, by omega⟩
                  | vNull => exact absurd rfl h0
                  | vUndef => exact absurd rfl h1
                  | vObj fs =>
                    simp only [arrbranch, Option.some.injEq, Prod.mk.injEq] at h
                    obtain ⟨-, -, hst⟩ := h
                    subst hst
                    exact ⟨rfl, by omega⟩
                  | vRef r =>
                    simp only [arrbranch, Option.some.injEq, Prod.mk.injEq] at h
                    obtain ⟨-, -, hst⟩ := h
                    subst hst
                    exact ⟨rfl, by omega⟩
                · rw [if_neg h4] at h
                  by_cases h5 : isObjectJ (getField curr k) = true
                  · rw [if_pos h5] at h
                    rcases hcall : step single f
                        (.cmt (getField curr k) subFind peers) st
                      with _ | ⟨b1, p1, st1⟩
                    · rw [hcall] at h; simp [obranch] at h
                    · rw [hcall] at h
                      have hc1 := ih _ _ _ _ _ hcall (by omega)
                      cases b1 with
                      | true =>
                        simp only [obranch] at h
                        have h6 := ih _ _ _ _ _ h (by omega)
                        exact ⟨h6.1.trans hc1.1, by omega⟩
                      | false =>
                        simp only [obranch, Option.some.injEq, Prod.mk.injEq] at h
                        obtain ⟨-, -, hst⟩ := h
                        subst hst
                        exact ⟨hc1.1, by omega⟩
                  · rw [if_neg h5] at h
                    by_cases h6 : getField curr k = subFind
                    · rw [if_pos h6] at h
                      have h7 := ih _ _ _ _ _ h (by omega)
                      exact ⟨h7.1, by omega⟩
                    · rw [if_neg h6] at h
                      simp only [Option.some.injEq, Prod.mk.injEq] at h
                      obtain ⟨-, -, hst⟩ := h
                      subst hst
                      exact ⟨rfl, by omega⟩
    | cna arr toFind peers =>
      rw [step_cna] at h
      rcases hg : isGlobS st.values toFind with _ | g
      · rw [hg] at h
        cases arr with
        | nil =>
          simp only [lbranch, Option.some.injEq, Prod.mk.injEq] at h
          obtain ⟨-, -, hst⟩ := h
          subst hst
          exact ⟨rfl, by omega⟩
        | cons x rest =>
          simp only [lbranch] at h
          rcases hcall : step single f (.cmt x toFind peers) st
            with _ | ⟨b1, p1, st1⟩
          · rw [hcall] at h; simp [obranch] at h
          · rw [hcall] at h
            have hc1 := ih _ _ _ _ _ hcall (by omega)
            cases b1 with
            | true =>
              simp only [obranch] at h
              cases p1 with
              | nil =>
                simp only [lbranch, Option.some.injEq, Prod.mk.injEq] at h
                obtain ⟨-, -, hst⟩ := h
                subst hst
                exact ⟨hc1.1, by omega⟩
              | cons tf1 pr =>
                simp only [lbranch] at h
                have h6 := ih _ _ _ _ _ h (by omega)
                exact ⟨h6.1.trans hc1.1, by omega⟩
            | false =>
              simp only [obranch] at h
              have h6 := ih _ _ _ _ _ h (by omega)
              exact ⟨h6.1.trans hc1.1, by omega⟩
      · rw [hg] at h
        simp only [Option.some.injEq, Prod.mk.injEq] at h
        obtain ⟨-, -, hst⟩ := h
        subst hst
        refine ⟨by rw [registerGlob_values], ?_⟩
        rw [ltsGet_registerGlob]
        omega

/-! ## Termination of the variable search (`anyPossible`, lines 138–177)

The key invariant: one engine run can consume at most `2 ^ fe` skips of any
one variable (`step_preserve`), so once a variable's skip count reaches
`2 ^ fe` the run — started on cleared binding cells — leaves that
variable's cell untouched, hence empty, and the do-while exits.  This
bounds every level of the search at `2 ^ fe + 1` iterations. -/

theorem sdSet_mst (s : SearchST) (n : String) (v : Nat) :
    (sdSet s n v).mst = s.mst := rfl

theorem sdGet_sdSet_self (s : SearchST) (n : String) (v : Nat) :
    sdGet (sdSet s n v) n = v := by
  simp [sdGet, sdSet, alookup_aset_self]

theorem sdGet_sdSet_ne (s : SearchST) (n m : String) (v : Nat) (h : n ≠ m) :
    sdGet (sdSet s n v) m = sdGet s m := by
  simp [sdGet, sdSet, alookup_aset_ne _ _ _ _ h]

theorem foldl_sdSet_mst : ∀ (l : List String) (s : SearchST),
    (l.foldl (fun acc n => sdSet acc n 0) s).mst = s.mst
  | [], _ => rfl
  | n :: r, s => by
    simp only [List.foldl_cons]
    rw [foldl_sdSet_mst r (sdSet s n 0), sdSet_mst]

theorem resetLater_mst (order : List String) (i : Nat) (s : SearchST) :
    (resetLater order i s).mst = s.mst := foldl_sdSet_mst _ _

theorem foldl_sdSet_sdGet : ∀ (l : List String) (s : SearchST) (v : String),
    v ∉ l → sdGet (l.foldl (fun acc n => sdSet acc n 0) s) v = sdGet s v
  | [], _, _, _ => rfl
  | n :: r, s, v, h => by
    have h' : v ≠ n ∧ v ∉ r := by simpa using h
    simp only [List.foldl_cons]
    rw [foldl_sdSet_sdGet r (sdSet s n 0) v h'.2]
    exact sdGet_sdSet_ne s n v 0 (fun e => h'.1 e.symm)

theorem sdGet_resetLater (order : List String) (i : Nat) (s : SearchST)
    (v : String) (h : v ∉ order.drop (i + 1)) :
    sdGet (resetLater order i s) v = sdGet s v :=
  foldl_sdSet_sdGet _ _ _ h

theorem alookup_map_nil : ∀ (l : List (String × JFields)) (k : String),
    alookup (l.map (fun p => (p.1, JFields.nil))) k =
      (alookup l k).map (fun _ => JFields.nil)
  | [], _ => rfl
  | (k0, v0) :: r, k => by
    by_cases hk : k0 = k <;> simp [alookup, hk, alookup_map_nil r k]

theorem cellGet_clearCells (st : WST) (v : String) :
    cellGet (clearCells st) v = JFields.nil := by
  simp only [cellGet, clearCells, alookup_map_nil]
  cases alookup st.values v <;> rfl

theorem cellEmptyW_iff (st : WST) (n : String) :
    cellEmptyW st n = true ↔ cellGet st n = JFields.nil := by
  simp [cellEmptyW]

/-- An engine run started on cleared binding cells, with at least `2 ^ fe`
skips left for `v`, returns with `v`'s binding cell still empty. -/
theorem run_keeps_cell_empty (single : Bool) (fe : Nat) (c : ECall)
    (m : WST) (sd : List (String × Nat)) (b : Bool) (p : List JsVal)
    (st' : WST) (v : String)
    (h : step single fe c { clearCells m with leftToSkip := sd } =
      some (b, p, st'))
    (hB : 2 ^ fe ≤ (alookup sd v).getD 0) :
    cellGet st' v = JFields.nil := by
  have hp := step_preserve single v fe c _ b p st' h hB
  have hv : alookup st'.values v =
      alookup { clearCells m with leftToSkip := sd }.values v := hp.1
  have : cellGet st' v = cellGet (clearCells m) v := by
    simp [cellGet, hv]
  rw [this, cellGet_clearCells]

theorem nthName_mem_drop : ∀ (l : List String) (i : Nat), i < l.length →
    nthName l i ∈ l.drop i
  | a :: t, 0, _ => by simp [nthName]
  | a :: t, i + 1, h => by
    simp only [nthName, List.getD_cons_succ, List.drop_succ_cons]
    exact nthName_mem_drop t i (by simpa using h)
  | [], i, h => absurd h (by simp)

theorem nodup_not_mem_drop_succ : ∀ (l : List String) (i : Nat), l.Nodup →
    i < l.length → nthName l i ∉ l.drop (i + 1)
  | a :: t, 0, hnd, _ => by
    simp only [nthName, List.getD_cons_zero, List.drop_succ_cons,
      List.drop_zero]
    exact (List.nodup_cons.mp hnd).1
  | a :: t, i + 1, hnd, h => by
    simp only [nthName, List.getD_cons_succ, List.drop_succ_cons]
    exact nodup_not_mem_drop_succ t i (List.nodup_cons.mp hnd).2
      (by simpa using h)
  | [], i, _, h => absurd h (by simp)

theorem drop_succ_subset (l : List String) (i : Nat) :
    l.drop (i + 1) ⊆ l.drop i := by
  intro x hx
  have he : l.drop (i + 1) = (l.drop i).drop 1 := by
    rw [List.drop_drop, Nat.add_comm]
  exact List.drop_subset _ _ (he ▸ hx)

theorem anyLoop_succ (ctx : MatchCtx) (cbs : VarCallbacks) (fe fa i : Nat)
    (s : SearchST) :
    anyLoop ctx cbs fe (fa + 1) i s =
      if i = ctx.order.length - 1 then
        runbranch
          (fun ok mst1 =>
            if ok then
              if (checkUserVarCallbacks mst1 cbs).1 then
                some (true,
                  { resetLater ctx.order i s with
                      mst := mst1,
                      failure := (checkUserVarCallbacks mst1 cbs).2.1,
                      errlog := (resetLater ctx.order i s).errlog ++
                        (checkUserVarCallbacks mst1 cbs).2.2 })
              else
                contStep (nthName ctx.order i) (anyLoop ctx cbs fe fa i)
                  { resetLater ctx.order i s with
                      mst := mst1,
                      failure := (checkUserVarCallbacks mst1 cbs).2.1,
                      errlog := (resetLater ctx.order i s).errlog ++
                        (checkUserVarCallbacks mst1 cbs).2.2 }
            else
              contStep (nthName ctx.order i) (anyLoop ctx cbs fe fa i)
                { resetLater ctx.order i s with mst := mst1 })
          (step ctx.single fe (.cmt ctx.codeTree ctx.toFind ctx.peers)
            { clearCells (resetLater ctx.order i s).mst with
                leftToSkip := (resetLater ctx.order i s).skipData })
      else
        recbranch
          (contStep (nthName ctx.order i) (anyLoop ctx cbs fe fa i))
          (anyLoop ctx cbs fe fa (i + 1)
            (sdSet (resetLater ctx.order i s) (nthName ctx.order (i + 1)) 0)) :=
  rfl

theorem anyLoop_last_none (ctx : MatchCtx) (cbs : VarCallbacks)
    (fe fa i : Nat) (s : SearchST) (hlast : i = ctx.order.length - 1)
    (hstep : step ctx.single fe (.cmt ctx.codeTree ctx.toFind ctx.peers)
      { clearCells (resetLater ctx.order i s).mst with
          leftToSkip := (resetLater ctx.order i s).skipData } = none) :
    anyLoop ctx cbs fe (fa + 1) i s = none := by
  rw [anyLoop_succ, if_pos hlast, hstep]
  rfl

theorem anyLoop_last_f (ctx : MatchCtx) (cbs : VarCallbacks)
    (fe fa i : Nat) (s : SearchST) (p : List JsVal) (mst1 : WST)
    (hlast : i = ctx.order.length - 1)
    (hstep : step ctx.single fe (.cmt ctx.codeTree ctx.toFind ctx.peers)
      { clearCells (resetLater ctx.order i s).mst with
          leftToSkip := (resetLater ctx.order i s).skipData } =
      some (false, p, mst1)) :
    anyLoop ctx cbs fe (fa + 1) i s =
      contStep (nthName ctx.order i) (anyLoop ctx cbs fe fa i)
        { resetLater ctx.order i s with mst := mst1 } := by
  rw [anyLoop_succ, if_pos hlast, hstep]
  rfl

theorem anyLoop_last_t_acc (ctx : MatchCtx) (cbs : VarCallbacks)
    (fe fa i : Nat) (s : SearchST) (p : List JsVal) (mst1 : WST)
    (hlast : i = ctx.order.length - 1)
    (hstep : step ctx.single fe (.cmt ctx.codeTree ctx.toFind ctx.peers)
      { clearCells (resetLater ctx.order i s).mst with
          leftToSkip := (resetLater ctx.order i s).skipData } =
      some (true, p, mst1))
    (hcb : (checkUserVarCallbacks mst1 cbs).1 = true) :
    anyLoop ctx cbs fe (fa + 1) i s =
      some (true,
        { resetLater ctx.order i s with
            mst := mst1,
            failure := (checkUserVarCallbacks mst1 cbs).2.1,
            errlog := (resetLater ctx.order i s).errlog ++
              (checkUserVarCallbacks mst1 cbs).2.2 }) := by
  rw [anyLoop_succ, if_pos hlast, hstep]
  simp only [runbranch, if_true, hcb]

theorem anyLoop_last_t_rej (ctx : MatchCtx) (cbs : VarCallbacks)
    (fe fa i : Nat) (s : SearchST) (p : List JsVal) (mst1 : WST)
    (hlast : i = ctx.order.length - 1)
    (hstep : step ctx.single fe (.cmt ctx.codeTree ctx.toFind ctx.peers)
      { clearCells (resetLater ctx.order i s).mst with
          leftToSkip := (resetLater ctx.order i s).skipData } =
      some (true, p, mst1))
    (hcb : (checkUserVarCallbacks mst1 cbs).1 = false) :
    anyLoop ctx cbs fe (fa + 1) i s =
      contStep (nthName ctx.order i) (anyLoop ctx cbs fe fa i)
        { resetLater ctx.order i s with
            mst := mst1,
            failure := (checkUserVarCallbacks mst1 cbs).2.1,
            errlog := (resetLater ctx.order i s).errlog ++
              (checkUserVarCallbacks mst1 cbs).2.2 } := by
  rw [anyLoop_succ, if_pos hlast, hstep]
  simp only [runbranch, if_true, hcb, Bool.false_eq_true, if_false]

theorem anyLoop_rec_none (ctx : MatchCtx) (cbs : VarCallbacks)
    (fe fa i : Nat) (s : SearchST) (hnl : ¬ i = ctx.order.length - 1)
    (hrec : anyLoop ctx cbs fe fa (i + 1)
      (sdSet (resetLater ctx.order i s) (nthName ctx.order (i + 1)) 0) =
      none) :
    anyLoop ctx cbs fe (fa + 1) i s = none := by
  rw [anyLoop_succ, if_neg hnl, hrec]
  rfl

theorem anyLoop_rec_t (ctx : MatchCtx) (cbs : VarCallbacks)
    (fe fa i : Nat) (s : SearchST) (s1 : SearchST)
    (hnl : ¬ i = ctx.order.length - 1)
    (hrec : anyLoop ctx cbs fe fa (i + 1)
      (sdSet (resetLater ctx.order i s) (nthName ctx.order (i + 1)) 0) =
      some (true, s1)) :
    anyLoop ctx cbs fe (fa + 1) i s = some (true, s1) := by
  rw [anyLoop_succ, if_neg hnl, hrec]
  rfl

theorem anyLoop_rec_f (ctx : MatchCtx) (cbs : VarCallbacks)
    (fe fa i : Nat) (s : SearchST) (s1 : SearchST)
    (hnl : ¬ i = ctx.order.length - 1)
    (hrec : anyLoop ctx cbs fe fa (i + 1)
      (sdSet (resetLater ctx.order i s) (nthName ctx.order (i + 1)) 0) =
      some (false, s1)) :
    anyLoop ctx cbs fe (fa + 1) i s =
      contStep (nthName ctx.order i) (anyLoop ctx cbs fe fa i) s1 := by
  rw [anyLoop_succ, if_neg hnl, hrec]
  rfl

theorem contStep_term (nm : String)
    (L : SearchST → Option (Bool × SearchST)) (s1 : SearchST)
    (h : cellEmptyW (sdSet s1 nm (sdGet s1 nm + 1)).mst nm = true ∨
      ∃ r s', L (sdSet s1 nm (sdGet s1 nm + 1)) = some (r, s')) :
    ∃ r s', contStep nm L s1 = some (r, s') := by
  unfold contStep
  rcases h with h | ⟨r, s', h⟩
  · exact ⟨false, _, by rw [if_pos h]⟩
  · by_cases hc : cellEmptyW (sdSet s1 nm (sdGet s1 nm + 1)).mst nm = true
    · exact ⟨false, _, by rw [if_pos hc]⟩
    · exact ⟨r, s', by rw [if_neg hc]; exact h⟩

theorem contStep_sd_frame (nm : String)
    (L : SearchST → Option (Bool × SearchST)) (s1 : SearchST)
    (r : Bool) (s' : SearchST) (v : String) (hnm : nm ≠ v)
    (h : contStep nm L s1 = some (r, s'))
    (hL : ∀ r2 s2, L (sdSet s1 nm (sdGet s1 nm + 1)) = some (r2, s2) →
      sdGet s2 v = sdGet (sdSet s1 nm (sdGet s1 nm + 1)) v) :
    sdGet s' v = sdGet s1 v := by
  unfold contStep at h
  by_cases hc : cellEmptyW (sdSet s1 nm (sdGet s1 nm + 1)).mst nm = true
  · rw [if_pos hc] at h
    simp only [Option.some.injEq, Prod.mk.injEq] at h
    obtain ⟨-, hs⟩ := h
    subst hs
    exact sdGet_sdSet_ne _ _ _ _ hnm
  · rw [if_neg hc] at h
    rw [hL r s' h, sdGet_sdSet_ne _ _ _ _ hnm]

/-- The search never changes the skip count of a variable that no level at
or below the current index owns. -/
theorem anyLoop_sd_frame (ctx : MatchCtx) (cbs : VarCallbacks) (fe : Nat)
    (v : String) :
    ∀ fa i s r s', anyLoop ctx cbs fe fa i s = some (r, s') →
      i < ctx.order.length → v ∉ ctx.order.drop i →
      sdGet s' v = sdGet s v := by
  intro fa
  induction fa with
  | zero =>
    intro i s r s' h _ _
    exact absurd h (by simp [anyLoop])
  | succ fa ih =>
    intro i s r s' h hi hv
    have hv1 : v ∉ ctx.order.drop (i + 1) := fun hm => hv (drop_succ_subset _ _ hm)
    have hvnm : nthName ctx.order i ≠ v := fun he => hv (he ▸ nthName_mem_drop _ _ hi)
    have hR : sdGet (resetLater ctx.order i s) v = sdGet s v :=
      sdGet_resetLater _ _ _ _ hv1
    by_cases hlast : i = ctx.order.length - 1
    · rcases hstep0 : step ctx.single fe (.cmt ctx.codeTree ctx.toFind ctx.peers)
          { clearCells (resetLater ctx.order i s).mst with
              leftToSkip := (resetLater ctx.order i s).skipData }
        with _ | ⟨ok, p, mst1⟩
      · rw [anyLoop_last_none ctx cbs fe fa i s hlast hstep0] at h
        exact absurd h (by simp)
      · cases ok with
        | false =>
          rw [anyLoop_last_f ctx cbs fe fa i s p mst1 hlast hstep0] at h
          have := contStep_sd_frame _ _ _ _ _ v hvnm h
            (fun r2 s2 h2 => ih i _ r2 s2 h2 hi hv)
          exact this.trans hR
        | true =>
          cases hcb : (checkUserVarCallbacks mst1 cbs).1 with
          | true =>
            rw [anyLoop_last_t_acc ctx cbs fe fa i s p mst1 hlast hstep0 hcb] at h
            simp only [Option.some.injEq, Prod.mk.injEq] at h
            obtain ⟨-, hs⟩ := h
            subst hs
            exact hR
          | false =>
            rw [anyLoop_last_t_rej ctx cbs fe fa i s p mst1 hlast hstep0 hcb] at h
            have := contStep_sd_frame _ _ _ _ _ v hvnm h
              (fun r2 s2 h2 => ih i _ r2 s2 h2 hi hv)
            exact this.trans hR
    · have hi1 : i + 1 < ctx.order.length := by omega
      have hnm1 : nthName ctx.order (i + 1) ≠ v :=
        fun he => hv1 (he ▸ nthName_mem_drop _ _ hi1)
      have hS : sdGet (sdSet (resetLater ctx.order i s)
          (nthName ctx.order (i + 1)) 0) v = sdGet s v :=
        (sdGet_sdSet_ne _ _ _ _ hnm1).trans hR
      rcases hrec : anyLoop ctx cbs fe fa (i + 1)
          (sdSet (resetLater ctx.order i s) (nthName ctx.order (i + 1)) 0)
        with _ | ⟨r1, s1⟩
      · rw [anyLoop_rec_none ctx cbs fe fa i s hlast hrec] at h
        exact absurd h (by simp)
      · have hs1 : sdGet s1 v = sdGet s v :=
          (ih (i + 1) _ r1 s1 hrec hi1 hv1).trans hS
        cases r1 with
        | true =>
          rw [anyLoop_rec_t ctx cbs fe fa i s s1 hlast hrec] at h
          simp only [Option.some.injEq, Prod.mk.injEq] at h
          obtain ⟨-, hs⟩ := h
          subst hs
          exact hs1
        | false =>
          rw [anyLoop_rec_f ctx cbs fe fa i s s1 hlast hrec] at h
          have := contStep_sd_frame _ _ _ _ _ v hvnm h
            (fun r2 s2 h2 => ih i _ r2 s2 h2 hi hv)
          exact this.trans hs1

theorem contStep_protect (nm : String)
    (L : SearchST → Option (Bool × SearchST)) (s1 s' : SearchST) (v : String)
    (h : contStep nm L s1 = some (false, s'))
    (hcell : cellGet s1.mst v = JFields.nil)
    (hL : ∀ s2', L (sdSet s1 nm (sdGet s1 nm + 1)) = some (false, s2') →
      cellGet s2'.mst v = JFields.nil) :
    cellGet s'.mst v = JFields.nil := by
  unfold contStep at h
  by_cases hc : cellEmptyW (sdSet s1 nm (sdGet s1 nm + 1)).mst nm = true
  · rw [if_pos hc] at h
    simp only [Option.some.injEq, Prod.mk.injEq] at h
    obtain ⟨-, hs⟩ := h
    subst hs
    exact hcell
  · rw [if_neg hc] at h
    exact hL s' h

/-- Once a variable's skip count has reached `2 ^ fe`, any failing return
of the search from a level that does not own the variable leaves its
binding cell empty. -/
theorem anyLoop_protect (ctx : MatchCtx) (cbs : VarCallbacks) (fe : Nat)
    (v : String) :
    ∀ fa i s s', anyLoop ctx cbs fe fa i s = some (false, s') →
      i < ctx.order.length → v ∉ ctx.order.drop i →
      2 ^ fe ≤ sdGet s v →
      cellGet s'.mst v = JFields.nil := by
  intro fa
  induction fa with
  | zero =>
    intro i s s' h _ _ _
    exact absurd h (by simp [anyLoop])
  | succ fa ih =>
    intro i s s' h hi hv hb
    have hv1 : v ∉ ctx.order.drop (i + 1) := fun hm => hv (drop_succ_subset _ _ hm)
    have hvnm : nthName ctx.order i ≠ v := fun he => hv (he ▸ nthName_mem_drop _ _ hi)
    have hR : sdGet (resetLater ctx.order i s) v = sdGet s v :=
      sdGet_resetLater _ _ _ _ hv1
    by_cases hlast : i = ctx.order.length - 1
    · rcases hstep0 : step ctx.single fe (.cmt ctx.codeTree ctx.toFind ctx.peers)
          { clearCells (resetLater ctx.order i s).mst with
              leftToSkip := (resetLater ctx.order i s).skipData }
        with _ | ⟨ok, p, mst1⟩
      · rw [anyLoop_last_none ctx cbs fe fa i s hlast hstep0] at h
        exact absurd h (by simp)
      · have hrun : cellGet mst1 v = JFields.nil := by
          refine run_keeps_cell_empty _ _ _ _ _ _ _ _ v hstep0 ?_
          show 2 ^ fe ≤ sdGet (resetLater ctx.order i s) v
          omega
        cases ok with
        | false =>
          rw [anyLoop_last_f ctx cbs fe fa i s p mst1 hlast hstep0] at h
          refine contStep_protect _ _ _ _ v h hrun (fun s2' h2 => ?_)
          refine ih i _ s2' h2 hi hv ?_
          have he : sdGet (sdSet { resetLater ctx.order i s with mst := mst1 }
              (nthName ctx.order i)
              (sdGet { resetLater ctx.order i s with mst := mst1 }
                (nthName ctx.order i) + 1)) v =
              sdGet { resetLater ctx.order i s with mst := mst1 } v :=
            sdGet_sdSet_ne _ _ _ _ hvnm
          have he2 : sdGet { resetLater ctx.order i s with mst := mst1 } v =
              sdGet (resetLater ctx.order i s) v := rfl
          omega
        | true =>
          cases hcb : (checkUserVarCallbacks mst1 cbs).1 with
          | true =>
            rw [anyLoop_last_t_acc ctx cbs fe fa i s p mst1 hlast hstep0 hcb] at h
            exact absurd h (by simp)
          | false =>
            rw [anyLoop_last_t_rej ctx cbs fe fa i s p mst1 hlast hstep0 hcb] at h
            refine contStep_protect _ _ _ _ v h hrun (fun s2' h2 => ?_)
            refine ih i _ s2' h2 hi hv ?_
            have he : sdGet (sdSet
                { resetLater ctx.order i s with
                    mst := mst1,
                    failure := (checkUserVarCallbacks mst1 cbs).2.1,
                    errlog := (resetLater ctx.order i s).errlog ++
                      (checkUserVarCallbacks mst1 cbs).2.2 }
                (nthName ctx.order i)
                (sdGet { resetLater ctx.order i s with
                    mst := mst1,
                    failure := (checkUserVarCallbacks mst1 cbs).2.1,
                    errlog := (resetLater ctx.order i s).errlog ++
                      (checkUserVarCallbacks mst1 cbs).2.2 }
                  (nthName ctx.order i) + 1)) v =
                sdGet (resetLater ctx.order i s) v :=
              sdGet_sdSet_ne _ _ _ _ hvnm
            omega
    · have hi1 : i + 1 < ctx.order.length := by omega
      have hnm1 : nthName ctx.order (i + 1) ≠ v :=
        fun he => hv1 (he ▸ nthName_mem_drop _ _ hi1)
      have hS : sdGet (sdSet (resetLater ctx.order i s)
          (nthName ctx.order (i + 1)) 0) v = sdGet s v :=
        (sdGet_sdSet_ne _ _ _ _ hnm1).trans hR
      rcases hrec : anyLoop ctx cbs fe fa (i + 1)
          (sdSet (resetLater ctx.order i s) (nthName ctx.order (i + 1)) 0)
        with _ | ⟨r1, s1⟩
      · rw [anyLoop_rec_none ctx cbs fe fa i s hlast hrec] at h
        exact absurd h (by simp)
      · cases r1 with
        | true =>
          rw [anyLoop_rec_t ctx cbs fe fa i s s1 hlast hrec] at h
          exact absurd h (by simp)
        | false =>
          have hcell1 : cellGet s1.mst v = JFields.nil :=
            ih (i + 1) _ s1 hrec hi1 hv1 (by omega)
          have hsd1 : sdGet s1 v = sdGet s v :=
            (anyLoop_sd_frame ctx cbs fe v fa (i + 1) _ false s1 hrec hi1 hv1).trans hS
          rw [anyLoop_rec_f ctx cbs fe fa i s s1 hlast hrec] at h
          refine contStep_protect _ _ _ _ v h hcell1 (fun s2' h2 => ?_)
          refine ih i _ s2' h2 hi hv ?_
          have he : sdGet (sdSet s1 (nthName ctx.order i)
              (sdGet s1 (nthName ctx.order i) + 1)) v = sdGet s1 v :=
            sdGet_sdSet_ne _ _ _ _ hvnm
          omega

theorem contStep_false_cell (nm : String)
    (L : SearchST → Option (Bool × SearchST)) (s1 s' : SearchST)
    (h : contStep nm L s1 = some (false, s'))
    (hL : ∀ s2', L (sdSet s1 nm (sdGet s1 nm + 1)) = some (false, s2') →
      cellEmptyW s2'.mst nm = true) :
    cellEmptyW s'.mst nm = true := by
  unfold contStep at h
  by_cases hc : cellEmptyW (sdSet s1 nm (sdGet s1 nm + 1)).mst nm = true
  · rw [if_pos hc] at h
    simp only [Option.some.injEq, Prod.mk.injEq] at h
    obtain ⟨-, hs⟩ := h
    subst hs
    exact hc
  · rw [if_neg hc] at h
    exact hL s' h

/-- A failing return of `anyPossible(i)` only ever happens with the
index-`i` variable's binding cell empty — exhaustion of its skip counts. -/
theorem anyLoop_false_cell (ctx : MatchCtx) (cbs : VarCallbacks) (fe : Nat) :
    ∀ fa i s s', anyLoop ctx cbs fe fa i s = some (false, s') →
      cellEmptyW s'.mst (nthName ctx.order i) = true := by
  intro fa
  induction fa with
  | zero =>
    intro i s s' h
    exact absurd h (by simp [anyLoop])
  | succ fa ih =>
    intro i s s' h
    by_cases hlast : i = ctx.order.length - 1
    · rcases hstep0 : step ctx.single fe (.cmt ctx.codeTree ctx.toFind ctx.peers)
          { clearCells (resetLater ctx.order i s).mst with
              leftToSkip := (resetLater ctx.order i s).skipData }
        with _ | ⟨ok, p, mst1⟩
      · rw [anyLoop_last_none ctx cbs fe fa i s hlast hstep0] at h
        exact absurd h (by simp)
      · cases ok with
        | false =>
          rw [anyLoop_last_f ctx cbs fe fa i s p mst1 hlast hstep0] at h
          exact contStep_false_cell _ _ _ _ h (fun s2' h2 => ih i _ s2' h2)
        | true =>
          cases hcb : (checkUserVarCallbacks mst1 cbs).1 with
          | true =>
            rw [anyLoop_last_t_acc ctx cbs fe fa i s p mst1 hlast hstep0 hcb] at h
            exact absurd h (by simp)
          | false =>
            rw [anyLoop_last_t_rej ctx cbs fe fa i s p mst1 hlast hstep0 hcb] at h
            exact contStep_false_cell _ _ _ _ h (fun s2' h2 => ih i _ s2' h2)
    · rcases hrec : anyLoop ctx cbs fe fa (i + 1)
          (sdSet (resetLater ctx.order i s) (nthName ctx.order (i + 1)) 0)
        with _ | ⟨r1, s1⟩
      · rw [anyLoop_rec_none ctx cbs fe fa i s hlast hrec] at h
        exact absurd h (by simp)
      · cases r1 with
        | true =>
          rw [anyLoop_rec_t ctx cbs fe fa i s s1 hlast hrec] at h
          exact absurd h (by simp)
        | false =>
          rw [anyLoop_rec_f ctx cbs fe fa i s s1 hlast hrec] at h
          exact contStep_false_cell _ _ _ _ h (fun s2' h2 => ih i _ s2' h2)

theorem contStep_reject (nm : String)
    (L : SearchST → Option (Bool × SearchST)) (s1 : SearchST)
    (r : Bool) (s' : SearchST)
    (h : contStep nm L s1 = some (r, s'))
    (hL : ∀ r2 s2, L (sdSet s1 nm (sdGet s1 nm + 1)) = some (r2, s2) →
      r2 = false) :
    r = false := by
  unfold contStep at h
  by_cases hc : cellEmptyW (sdSet s1 nm (sdGet s1 nm + 1)).mst nm = true
  · rw [if_pos hc] at h
    simp only [Option.some.injEq, Prod.mk.injEq] at h
    exact h.1.symm
  · rw [if_neg hc] at h
    exact hL r s' h

/-- With a var-callback group that rejects every binding, the search can
only ever return false. -/
theorem anyLoop_reject (ctx : MatchCtx) (cbs : VarCallbacks) (fe : Nat)
    (Hrej : ∀ m : WST, (checkUserVarCallbacks m cbs).1 = false) :
    ∀ fa i s r s', anyLoop ctx cbs fe fa i s = some (r, s') → r = false := by
  intro fa
  induction fa with
  | zero =>
    intro i s r s' h
    exact absurd h (by simp [anyLoop])
  | succ fa ih =>
    intro i s r s' h
    by_cases hlast : i = ctx.order.length - 1
    · rcases hstep0 : step ctx.single fe (.cmt ctx.codeTree ctx.toFind ctx.peers)
          { clearCells (resetLater ctx.order i s).mst with
              leftToSkip := (resetLater ctx.order i s).skipData }
        with _ | ⟨ok, p, mst1⟩
      · rw [anyLoop_last_none ctx cbs fe fa i s hlast hstep0] at h
        exact absurd h (by simp)
      · cases ok with
        | false =>
          rw [anyLoop_last_f ctx cbs fe fa i s p mst1 hlast hstep0] at h
          exact contStep_reject _ _ _ _ _ h (fun r2 s2 h2 => ih i _ r2 s2 h2)
        | true =>
          rw [anyLoop_last_t_rej ctx cbs fe fa i s p mst1 hlast hstep0
            (Hrej mst1)] at h
          exact contStep_reject _ _ _ _ _ h (fun r2 s2 h2 => ih i _ r2 s2 h2)
    · rcases hrec : anyLoop ctx cbs fe fa (i + 1)
          (sdSet (resetLater ctx.order i s) (nthName ctx.order (i + 1)) 0)
        with _ | ⟨r1, s1⟩
      · rw [anyLoop_rec_none ctx cbs fe fa i s hlast hrec] at h
        exact absurd h (by simp)
      · cases r1 with
        | true => exact absurd (ih (i + 1) _ true s1 hrec) (by simp)
        | false =>
          rw [anyLoop_rec_f ctx cbs fe fa i s s1 hlast hrec] at h
          exact contStep_reject _ _ _ _ _ h (fun r2 s2 h2 => ih i _ r2 s2 h2)

/-- Termination of the backtracking variable search: provided each engine
run at fuel `fe` completes (`Hrun`) and the variable order has no
duplicates, fuel linear in the number of levels — with `2 ^ fe + 2` per
level — makes `anyPossible(i)` return a definite verdict. -/
theorem anyLoop_term (ctx : MatchCtx) (cbs : VarCallbacks) (fe : Nat)
    (Hrun : ∀ st : WST, (step ctx.single fe
      (.cmt ctx.codeTree ctx.toFind ctx.peers) st).isSome = true)
    (Hnd : ctx.order.Nodup) :
    ∀ d i, i + d + 1 = ctx.order.length →
      ∀ fa s,
        2 ^ fe - sdGet s (nthName ctx.order i) + 2 + d * (2 ^ fe + 2) ≤ fa →
        ∃ r s', anyLoop ctx cbs fe fa i s = some (r, s') := by
  intro d
  induction d with
  | zero =>
    intro i hi fa
    induction fa with
    | zero => intro s hs; exact absurd hs (by omega)
    | succ fa ihf =>
      intro s hs
      have hlast : i = ctx.order.length - 1 := by omega
      have hv1 : nthName ctx.order i ∉ ctx.order.drop (i + 1) := by
        have hd : ctx.order.drop (i + 1) = [] := by
          rw [show i + 1 = ctx.order.length by omega, List.drop_length]
        simp [hd]
      have hRnm : sdGet (resetLater ctx.order i s) (nthName ctx.order i) =
          sdGet s (nthName ctx.order i) := sdGet_resetLater _ _ _ _ hv1
      rcases hstep0 : step ctx.single fe (.cmt ctx.codeTree ctx.toFind ctx.peers)
          { clearCells (resetLater ctx.order i s).mst with
              leftToSkip := (resetLater ctx.order i s).skipData }
        with _ | ⟨ok, p, mst1⟩
      · have hiss := Hrun { clearCells (resetLater ctx.order i s).mst with
            leftToSkip := (resetLater ctx.order i s).skipData }
        rw [hstep0] at hiss
        exact absurd hiss (by simp)
      · cases ok with
        | false =>
          obtain ⟨r, s', hcs⟩ : ∃ r s',
              contStep (nthName ctx.order i) (anyLoop ctx cbs fe fa i)
                { resetLater ctx.order i s with mst := mst1 } = some (r, s') := by
            apply contStep_term
            by_cases hv : 2 ^ fe ≤ sdGet s (nthName ctx.order i)
            · left
              have hcell : cellGet mst1 (nthName ctx.order i) = JFields.nil := by
                refine run_keeps_cell_empty _ _ _ _ _ _ _ _ _ hstep0 ?_
                show 2 ^ fe ≤ sdGet (resetLater ctx.order i s) (nthName ctx.order i)
                omega
              rw [cellEmptyW_iff]
              exact hcell
            · right
              refine ihf _ ?_
              rw [sdGet_sdSet_self]
              have hB : sdGet { resetLater ctx.order i s with mst := mst1 }
                  (nthName ctx.order i) =
                  sdGet (resetLater ctx.order i s) (nthName ctx.order i) := rfl
              rw [hB, hRnm]
              omega
          exact ⟨r, s',
            (anyLoop_last_f ctx cbs fe fa i s p mst1 hlast hstep0).trans hcs⟩
        | true =>
          cases hcb : (checkUserVarCallbacks mst1 cbs).1 with
          | true =>
            exact ⟨true, _,
              anyLoop_last_t_acc ctx cbs fe fa i s p mst1 hlast hstep0 hcb⟩
          | false =>
            obtain ⟨r, s', hcs⟩ : ∃ r s',
                contStep (nthName ctx.order i) (anyLoop ctx cbs fe fa i)
                  { resetLater ctx.order i s with
                      mst := mst1,
                      failure := (checkUserVarCallbacks mst1 cbs).2.1,
                      errlog := (resetLater ctx.order i s).errlog ++
                        (checkUserVarCallbacks mst1 cbs).2.2 } = some (r, s') := by
              apply contStep_term
              by_cases hv : 2 ^ fe ≤ sdGet s (nthName ctx.order i)
              · left
                have hcell : cellGet mst1 (nthName ctx.order i) = JFields.nil := by
                  refine run_keeps_cell_empty _ _ _ _ _ _ _ _ _ hstep0 ?_
                  show 2 ^ fe ≤ sdGet (resetLater ctx.order i s) (nthName ctx.order i)
                  omega
                rw [cellEmptyW_iff]
                exact hcell
              · right
                refine ihf _ ?_
                rw [sdGet_sdSet_self]
                have hB : sdGet
                    { resetLater ctx.order i s with
                        mst := mst1,
                        failure := (checkUserVarCallbacks mst1 cbs).2.1,
                        errlog := (resetLater ctx.order i s).errlog ++
                          (checkUserVarCallbacks mst1 cbs).2.2 }
                    (nthName ctx.order i) =
                    sdGet (resetLater ctx.order i s) (nthName ctx.order i) := rfl
                rw [hB, hRnm]
                omega
            exact ⟨r, s',
              (anyLoop_last_t_rej ctx cbs fe fa i s p mst1 hlast hstep0 hcb).trans hcs⟩
  | succ d ihd =>
    intro i hi fa
    induction fa with
    | zero =>
      intro s hs
      exact absurd hs (by omega)
    | succ fa ihf =>
      intro s hs
      have hnl : ¬ i = ctx.order.length - 1 := by omega
      have hi' : i < ctx.order.length := by omega
      have hi1 : i + 1 < ctx.order.length := by omega
      have hmul : (d + 1) * (2 ^ fe + 2) = d * (2 ^ fe + 2) + (2 ^ fe + 2) := by
        ring
      have hnmd : nthName ctx.order i ∉ ctx.order.drop (i + 1) :=
        nodup_not_mem_drop_succ _ _ Hnd hi'
      have hne : nthName ctx.order (i + 1) ≠ nthName ctx.order i :=
        fun he => hnmd (he ▸ nthName_mem_drop _ _ hi1)
      have hbound : 2 ^ fe - sdGet (sdSet (resetLater ctx.order i s)
            (nthName ctx.order (i + 1)) 0) (nthName ctx.order (i + 1)) + 2 +
            d * (2 ^ fe + 2) ≤ fa := by
        rw [sdGet_sdSet_self, Nat.sub_zero]
        have h2 : 2 ^ fe + 2 + d * (2 ^ fe + 2) = (d + 1) * (2 ^ fe + 2) := by
          ring
        rw [h2]
        omega
      obtain ⟨r1, s1, hrec⟩ := ihd (i + 1) (by omega) fa
        (sdSet (resetLater ctx.order i s) (nthName ctx.order (i + 1)) 0) hbound
      cases r1 with
      | true => exact ⟨true, s1, anyLoop_rec_t ctx cbs fe fa i s s1 hnl hrec⟩
      | false =>
        have hsd1 : sdGet s1 (nthName ctx.order i) =
            sdGet s (nthName ctx.order i) := by
          have h1 := anyLoop_sd_frame ctx cbs fe (nthName ctx.order i) fa
            (i + 1) _ false s1 hrec hi1 hnmd
          rw [h1, sdGet_sdSet_ne _ _ _ _ hne,
            sdGet_resetLater _ _ _ _ hnmd]
        obtain ⟨r, s', hcs⟩ : ∃ r s',
            contStep (nthName ctx.order i) (anyLoop ctx cbs fe fa i) s1 =
              some (r, s') := by
          apply contStep_term
          by_cases hv : 2 ^ fe ≤ sdGet s (nthName ctx.order i)
          · left
            have hcell : cellGet s1.mst (nthName ctx.order i) = JFields.nil := by
              refine anyLoop_protect ctx cbs fe _ fa (i + 1) _ s1 hrec hi1 hnmd ?_
              rw [sdGet_sdSet_ne _ _ _ _ hne, sdGet_resetLater _ _ _ _ hnmd]
              omega
            rw [cellEmptyW_iff]
            exact hcell
          · right
            refine ihf _ ?_
            rw [sdGet_sdSet_self, hsd1]
            omega
        exact ⟨r, s', (anyLoop_rec_f ctx cbs fe fa i s s1 hnl hrec).trans hcs⟩

/-- C1.  For every configuration of the variable search — a non-empty,
duplicate-free variable order, over any finite trees — in which each
engine run completes within its fuel (`Hrun`), the backtracking search
terminates.  Fuel `(2 ^ fe + 2) · |order|` yields a definite verdict
(first conjunct: it either returns a match result for some skip-count
assignment or returns false after exhausting all assignments); a
variable's skip-count loop at index `i` ends as soon as a run leaves
that variable's binding cell empty (second conjunct); a failing return
at index `i` — in particular overall failure at index 0 — happens only
with that variable's occurrences exhausted, its binding cell left empty
(third conjunct); and a user predicate that always rejects leads to the
normal no-match outcome `false`, not a crash or an endless search
(fourth conjunct). -/
theorem claim_C1 (ctx : MatchCtx) (cbs : VarCallbacks) (fe : Nat)
    (Hrun : ∀ st : WST, (step ctx.single fe
      (.cmt ctx.codeTree ctx.toFind ctx.peers) st).isSome = true)
    (Hnd : ctx.order.Nodup) (Hne : ctx.order ≠ []) :
    (∀ s : SearchST, ∃ r s',
      anyLoop ctx cbs fe ((2 ^ fe + 2) * ctx.order.length) 0 s =
        some (r, s')) ∧
    (∀ (fa i : Nat) (s1 : SearchST),
      cellEmptyW (sdSet s1 (nthName ctx.order i)
        (sdGet s1 (nthName ctx.order i) + 1)).mst (nthName ctx.order i) =
        true →
      contStep (nthName ctx.order i) (anyLoop ctx cbs fe fa i) s1 =
        some (false, sdSet s1 (nthName ctx.order i)
          (sdGet s1 (nthName ctx.order i) + 1))) ∧
    (∀ (fa i : Nat) (s s' : SearchST),
      anyLoop ctx cbs fe fa i s = some (false, s') →
      cellEmptyW s'.mst (nthName ctx.order i) = true) ∧
    ((∀ m : WST, (checkUserVarCallbacks m cbs).1 = false) →
      ∀ s : SearchST, ∃ s',
        anyLoop ctx cbs fe ((2 ^ fe + 2) * ctx.order.length) 0 s =
          some (false, s')) := by
  have hlen : 0 < ctx.order.length := List.length_pos.mpr Hne
  have hterm : ∀ s : SearchST, ∃ r s',
      anyLoop ctx cbs fe ((2 ^ fe + 2) * ctx.order.length) 0 s =
        some (r, s') := by
    intro s
    refine anyLoop_term ctx cbs fe Hrun Hnd (ctx.order.length - 1) 0
      (by omega) _ s ?_
    have h2 : ∀ n : Nat, 0 < n →
        (2 ^ fe + 2) * n = (n - 1) * (2 ^ fe + 2) + (2 ^ fe + 2) := by
      intro n hn
      cases n with
      | zero => omega
      | succ m =>
        simp only [Nat.succ_sub_one]
        ring
    rw [h2 _ hlen]
    have h3 : 2 ^ fe - sdGet s (nthName ctx.order 0) + 2 +
        (ctx.order.length - 1) * (2 ^ fe + 2) ≤
        2 ^ fe + 2 + (ctx.order.length - 1) * (2 ^ fe + 2) :=
      Nat.add_le_add_right (Nat.add_le_add_right (Nat.sub_le _ _) 2) _
    have h4 : 2 ^ fe + 2 + (ctx.order.length - 1) * (2 ^ fe + 2) =
        (ctx.order.length - 1) * (2 ^ fe + 2) + (2 ^ fe + 2) := by
      ring
    rw [h4] at h3
    exact h3
  refine ⟨hterm, ?_, ?_, ?_⟩
  · intro fa i s1 hc
    unfold contStep
    rw [if_pos hc]
  · intro fa i s s' h
    exact anyLoop_false_cell ctx cbs fe fa i s s' h
  · intro Hrej s
    obtain ⟨r, s', h⟩ := hterm s
    have hr := anyLoop_reject ctx cbs fe Hrej _ _ _ _ _ h
    subst hr
    exact ⟨s', h⟩

/-- A concrete engine-totality fact for the C1 witness: matching the empty
object template needs only three units of engine fuel, from any state. -/
theorem hrun_demo (st : WST) :
    (step false 3 (ECall.cmt (vObj JFields.nil) (vObj JFields.nil) [])
      st).isSome = true := by
  show (step false (0 + 1 + 1 + 1)
    (ECall.cmt (vObj JFields.nil) (vObj JFields.nil) []) st).isSome = true
  rw [step_cmt, step_emn]
  simp [derefFind, toListF, step_emnFields_nil, obranch]

/-- A var-callback group that rejects every binding, for the C1 witness. -/
theorem hrej_demo (m : WST) :
    (checkUserVarCallbacks m [("a", fun _ => vBool false)]).1 = false := by
  simp [checkUserVarCallbacks, truthy, hasF, fieldsOf]

/-- C1 witness: a one-variable search with an always-rejecting callback
returns a definite verdict, and that verdict is the normal no-match
`false`. -/
theorem claim_C1_witness :
    (∃ r s', anyLoop ⟨false, vObj JFields.nil, vObj JFields.nil, [], ["$a"]⟩
        [("a", fun _ => vBool false)] 3 ((2 ^ 3 + 2) * ["$a"].length) 0
        ⟨[("$a", 0)], ⟨[("$a", JFields.nil)], [], [], [], none⟩, none, []⟩ =
        some (r, s')) ∧
    (∃ s', anyLoop ⟨false, vObj JFields.nil, vObj JFields.nil, [], ["$a"]⟩
        [("a", fun _ => vBool false)] 3 ((2 ^ 3 + 2) * ["$a"].length) 0
        ⟨[("$a", 0)], ⟨[("$a", JFields.nil)], [], [], [], none⟩, none, []⟩ =
        some (false, s')) := by
  have h := claim_C1 ⟨false, vObj JFields.nil, vObj JFields.nil, [], ["$a"]⟩
    [("a", fun _ => vBool false)] 3 hrun_demo (by decide) (by decide)
  exact ⟨h.1 _, h.2.2.2 hrej_demo _⟩

end Structured
